import Mathlib

/-!
Verification of the Advent-of-Code solution scripts in this repository.

Each Python solution file is shallow-embedded: pure functions become Lean
functions, file access becomes explicit passing of file contents (a map from
paths to lists of lines), integers become `Nat`/`Int`, and code that can raise
an exception returns `Option` (with `none` standing for an uncaught exception).
-/

set_option maxHeartbeats 1000000
set_option linter.unusedVariables false

/-! ## Day 25 (2022): SNAFU base conversion (`src/22/day25/python/solution.py`) -/

namespace Day25

/-- `SNAFU_TO_DECIMAL_MAP` applied to a single character: digits `0`,`1`,`2`
map to themselves, `-` to `-1` and `=` to `-2`; any other character is a
`KeyError`, modelled as `none`. -/
def snafuCharVal (c : Char) : Option ℤ :=
  if c = '0' then some 0
  else if c = '1' then some 1
  else if c = '2' then some 2
  else if c = '-' then some (-1)
  else if c = '=' then some (-2)
  else none

/-- Value of a little-endian list of SNAFU characters: the running sum
`Σ value(cᵢ) * 5^i` computed by `snafu_to_decimal`'s generator expression. -/
def snafuSumLE : List Char → Option ℤ
  | [] => some 0
  | c :: cs => do
      let v ← snafuCharVal c
      let r ← snafuSumLE cs
      pure (v + 5 * r)

/-- `snafu_to_decimal`: sum of digit values times `5 ** digit_index` over
`enumerate(reversed(snafu_number))`. -/
def snafu_to_decimal (s : String) : Option ℤ :=
  snafuSumLE s.toList.reverse

/-- `str(d)` for a single decimal digit `d`. -/
def digitChar (d : ℕ) : Char := Char.ofNat (48 + d)

/-- `int(c)` for a single decimal digit character `c`. -/
def charDigit (c : Char) : ℕ := c.toNat - 48

/-- `decimal_to_base`: big-endian base-5 digit string of `n` built by the
`while decimal_number:` loop (`appendleft(str(n % 5)); n //= 5`), which is the
reversal of the little-endian digit list `Nat.digits 5 n`. -/
def decimal_to_base (n : ℕ) : String :=
  ⟨((Nat.digits 5 n).map digitChar).reverse⟩

/-- `DECIMAL_TO_SNAFU_MAP` lookup: inverse of `snafuCharVal`. -/
def decToSnafuChar (d : ℤ) : Option Char :=
  if d = 0 then some '0'
  else if d = 1 then some '1'
  else if d = 2 then some '2'
  else if d = -1 then some '-'
  else if d = -2 then some '='
  else none

/-- Loop body of `decimal_to_snafu`: walk the base-5 digits little-endian with
a carry (`remainder`), turning each digit plus carry into one SNAFU character;
a digit outside `0..5` is the `ValueError` branch (`none`).  The list produced
here is little-endian (the source re-reverses it at the end). -/
def snafuDigitsLoop : List ℕ → ℕ → Option (List Char)
  | [], r => if r ≠ 0 then some ['1'] else some []
  | d :: ds, r =>
    let digit : ℤ := (d : ℤ) + (r : ℤ)
    if digit = 0 ∨ digit = 1 ∨ digit = 2 then do
      let c ← decToSnafuChar digit
      let rest ← snafuDigitsLoop ds 0
      pure (c :: rest)
    else if digit = 3 ∨ digit = 4 ∨ digit = 5 then do
      let c ← decToSnafuChar (digit - 5)
      let rest ← snafuDigitsLoop ds 1
      pure (c :: rest)
    else none

/-- `decimal_to_snafu` for a non-negative decimal number: convert to base 5,
process the digits in reverse (little-endian) with the carry loop, and reverse
the accumulated SNAFU digits back into a big-endian string. -/
def decimal_to_snafu (n : ℕ) : Option String :=
  (snafuDigitsLoop ((decimal_to_base n).toList.reverse.map charDigit) 0).map
    (fun l => (⟨l.reverse⟩ : String))

theorem charDigit_digitChar (d : ℕ) (h : d < 10) : charDigit (digitChar d) = d := by
  interval_cases d <;> rfl

theorem decimal_to_base_digits (n : ℕ) :
    (decimal_to_base n).toList.reverse.map charDigit = Nat.digits 5 n := by
  have hchars : (decimal_to_base n).toList = ((Nat.digits 5 n).map digitChar).reverse := rfl
  rw [hchars, List.reverse_reverse, List.map_map]
  have h10 : ∀ x ∈ Nat.digits 5 n, (charDigit ∘ digitChar) x = x := by
    intro x hx
    have h5 : x < 5 := Nat.digits_lt_base (by norm_num) hx
    exact charDigit_digitChar x (lt_trans h5 (by norm_num))
  rw [List.map_congr_left h10]
  simp

theorem decToSnafuChar_inverse (z : ℤ) (h1 : -2 ≤ z) (h2 : z ≤ 2) :
    ∃ c, decToSnafuChar z = some c ∧ snafuCharVal c = some z := by
  interval_cases z <;> exact ⟨_, rfl, rfl⟩

theorem snafuDigitsLoop_spec :
    ∀ (ds : List ℕ), (∀ d ∈ ds, d < 5) → ∀ r : ℕ, r ≤ 1 →
      ∃ out, snafuDigitsLoop ds r = some out ∧
        snafuSumLE out = some ((Nat.ofDigits 5 ds : ℤ) + (r : ℤ)) := by
  intro ds
  induction ds with
  | nil =>
    intro _ r hr
    interval_cases r
    · exact ⟨[], rfl, by simp [snafuSumLE, Nat.ofDigits]⟩
    · refine ⟨['1'], rfl, ?_⟩
      simp [snafuSumLE, snafuCharVal, Nat.ofDigits]
  | cons d ds ih =>
    intro hlt r hr
    have hd : d < 5 := hlt d (List.mem_cons_self d ds)
    have hih := ih (fun x hx => hlt x (List.mem_cons_of_mem d hx))
    by_cases hcase : (d : ℤ) + (r : ℤ) ≤ 2
    · -- small digit: no carry out
      have hcond : ((d : ℤ) + (r : ℤ) = 0 ∨ (d : ℤ) + (r : ℤ) = 1 ∨ (d : ℤ) + (r : ℤ) = 2) := by
        omega
      obtain ⟨c, hc, hcv⟩ := decToSnafuChar_inverse ((d : ℤ) + (r : ℤ)) (by omega) (by omega)
      obtain ⟨rest, hrest, hsum⟩ := hih 0 (by omega)
      refine ⟨c :: rest, ?_, ?_⟩
      · simp only [snafuDigitsLoop, if_pos hcond]
        rw [hc, hrest]
        rfl
      · have hcons : Nat.ofDigits (5 : ℤ) (d :: ds) = (d : ℤ) + 5 * Nat.ofDigits (5 : ℤ) ds := rfl
        simp only [snafuSumLE, hcv, hsum]
        simp only [Option.bind_eq_bind, Option.some_bind]
        rw [hcons]
        push_cast
        ring_nf
        rfl
    · -- large digit: emit digit - 5 and carry 1
      have hnot : ¬ ((d : ℤ) + (r : ℤ) = 0 ∨ (d : ℤ) + (r : ℤ) = 1 ∨ (d : ℤ) + (r : ℤ) = 2) := by
        omega
      have hcond : ((d : ℤ) + (r : ℤ) = 3 ∨ (d : ℤ) + (r : ℤ) = 4 ∨ (d : ℤ) + (r : ℤ) = 5) := by
        omega
      obtain ⟨c, hc, hcv⟩ := decToSnafuChar_inverse ((d : ℤ) + (r : ℤ) - 5) (by omega) (by omega)
      obtain ⟨rest, hrest, hsum⟩ := hih 1 (by omega)
      refine ⟨c :: rest, ?_, ?_⟩
      · simp only [snafuDigitsLoop, if_neg hnot, if_pos hcond]
        rw [hc, hrest]
        rfl
      · have hcons : Nat.ofDigits (5 : ℤ) (d :: ds) = (d : ℤ) + 5 * Nat.ofDigits (5 : ℤ) ds := rfl
        simp only [snafuSumLE, hcv, hsum]
        simp only [Option.bind_eq_bind, Option.some_bind]
        rw [hcons]
        push_cast
        ring_nf
        rfl

/-- C8: for every non-negative integer `n`, the day 25 base conversion
round-trips: `snafu_to_decimal (decimal_to_snafu n) = n`; in particular
`decimal_to_snafu 0` is the empty string and `snafu_to_decimal` maps the empty
string back to `0`. -/
theorem c8_snafu_decimal_roundtrip :
    (∀ n : ℕ, ∃ s : String, decimal_to_snafu n = some s ∧
        snafu_to_decimal s = some (n : ℤ))
    ∧ decimal_to_snafu 0 = some ("") ∧ snafu_to_decimal ("") = some 0 := by
  have main : ∀ n : ℕ, ∃ s : String, decimal_to_snafu n = some s ∧
      snafu_to_decimal s = some (n : ℤ) := by
    intro n
    have hlt : ∀ d ∈ Nat.digits 5 n, d < 5 :=
      fun d hd => Nat.digits_lt_base (by norm_num) hd
    obtain ⟨out, hout, hsum⟩ := snafuDigitsLoop_spec (Nat.digits 5 n) hlt 0 (by omega)
    refine ⟨⟨out.reverse⟩, ?_, ?_⟩
    · rw [decimal_to_snafu, decimal_to_base_digits, hout]
      rfl
    · have htl : (⟨out.reverse⟩ : String).toList = out.reverse := rfl
      have h1 : Nat.ofDigits (5 : ℤ) (Nat.digits 5 n) = ((Nat.ofDigits 5 (Nat.digits 5 n) : ℕ) : ℤ) := by
        exact_mod_cast (Nat.coe_int_ofDigits 5 (Nat.digits 5 n)).symm
      rw [snafu_to_decimal, htl, List.reverse_reverse, hsum, h1, Nat.ofDigits_digits]
      norm_num
  refine ⟨main, ?_, rfl⟩
  obtain ⟨s, hs, hv⟩ := main 0
  have hzero : decimal_to_snafu 0 = some ("") := by
    have hdig : Nat.digits 5 0 = [] := Nat.digits_zero 5
    rw [decimal_to_snafu, decimal_to_base_digits, hdig]
    rfl
  exact hzero

end Day25

/-! ## Day 13 (2022): packet comparison (`src/22/day13/python/solution.py`) -/

namespace Day13

/-- A parsed packet: either an integer or a (possibly nested) list, the
values produced by `ast.literal_eval` on an input line. -/
inductive Packet where
  | int : ℤ → Packet
  | list : List Packet → Packet

/-- Python's `x == []` test: true exactly for the empty list packet (an
integer never compares equal to `[]`). -/
def isEmptyPacket : Packet → Bool
  | .list [] => true
  | _ => false

mutual

/-- Structural size of a packet (for termination of the comparison). -/
def psize : Packet → ℕ
  | .int _ => 1
  | .list ps => 1 + lsize ps

/-- Structural size of a packet list. -/
def lsize : List Packet → ℕ
  | [] => 0
  | p :: ps => psize p + lsize ps

end

/-- One when exactly one side is an integer (it will be wrapped into a
singleton list without changing the sizes), zero otherwise. -/
def adjPart : Packet → Packet → ℕ
  | .int _, .list _ => 1
  | .list _, .int _ => 1
  | _, _ => 0

/-- One for an integer packet, zero for a list packet. -/
def intFlag : Packet → ℕ
  | .int _ => 1
  | .list _ => 0

theorem psize_pos (p : Packet) : 0 < psize p := by
  cases p <;> simp [psize]

theorem adjPart_le_one (l r : Packet) : adjPart l r ≤ 1 := by
  cases l <;> cases r <;> simp [adjPart]

theorem intFlag_le_one (p : Packet) : intFlag p ≤ 1 := by
  cases p <;> simp [intFlag]

/-- `pairwise_comparison`, translated branch for branch from the source:
`1` means the left item is smaller, `-1` the right item, `0` undecided-equal.
The first three tests mirror the `== []` special cases (note that two empty
lists compare as `1`, not `0`); integers compare directly; a lone integer is
wrapped in a singleton list; two non-empty lists first handle the
both-heads-empty special case, then compare heads and recurse into tails. -/
def pairwise_comparison (l : Packet) (r : Packet) : ℤ :=
  if isEmptyPacket r ∧ isEmptyPacket l then 1
  else if isEmptyPacket r then -1
  else if isEmptyPacket l then 1
  else
    match l, r with
    | .int a, .int b => if a < b then 1 else if b < a then -1 else 0
    | .int a, .list rs => pairwise_comparison (.list [.int a]) (.list rs)
    | .list ls, .int b => pairwise_comparison (.list ls) (.list [.int b])
    | .list (x :: xt), .list (y :: yt) =>
      if isEmptyPacket x ∧ isEmptyPacket y then
        if xt.isEmpty ∧ yt.isEmpty then 1
        else pairwise_comparison (.list xt) (.list yt)
      else
        let ec := pairwise_comparison x y
        if ec ≠ 0 then ec
        else pairwise_comparison (.list xt) (.list yt)
    | .list [], _ => 1
    | _, .list [] => -1
termination_by 3 * (psize l + psize r + adjPart l r) + intFlag l + intFlag r
decreasing_by
  · simp only [psize, lsize, adjPart, intFlag]
    omega
  · simp only [psize, lsize, adjPart, intFlag]
    omega
  · -- tails, after the both-heads-empty special case
    have hx := psize_pos x
    have hy := psize_pos y
    have e1 : psize (Packet.list (x :: xt)) = 1 + (psize x + lsize xt) := by simp [psize, lsize]
    have e2 : psize (Packet.list (y :: yt)) = 1 + (psize y + lsize yt) := by simp [psize, lsize]
    have e3 : psize (Packet.list xt) = 1 + lsize xt := by simp [psize]
    have e4 : psize (Packet.list yt) = 1 + lsize yt := by simp [psize]
    have e5 : adjPart (Packet.list (x :: xt)) (Packet.list (y :: yt)) = 0 := rfl
    have e6 : adjPart (Packet.list xt) (Packet.list yt) = 0 := rfl
    have e7 : intFlag (Packet.list (x :: xt)) = 0 := rfl
    have e8 : intFlag (Packet.list (y :: yt)) = 0 := rfl
    have e9 : intFlag (Packet.list xt) = 0 := rfl
    have e10 : intFlag (Packet.list yt) = 0 := rfl
    omega
  · -- comparison of the two heads
    have hax := adjPart_le_one x y
    have hfx := intFlag_le_one x
    have hfy := intFlag_le_one y
    have e1 : psize (Packet.list (x :: xt)) = 1 + (psize x + lsize xt) := by simp [psize, lsize]
    have e2 : psize (Packet.list (y :: yt)) = 1 + (psize y + lsize yt) := by simp [psize, lsize]
    have e3 : adjPart (Packet.list (x :: xt)) (Packet.list (y :: yt)) = 0 := rfl
    have e4 : intFlag (Packet.list (x :: xt)) = 0 := rfl
    have e5 : intFlag (Packet.list (y :: yt)) = 0 := rfl
    omega
  · -- tails, in the general case
    have hx := psize_pos x
    have hy := psize_pos y
    have e1 : psize (Packet.list (x :: xt)) = 1 + (psize x + lsize xt) := by simp [psize, lsize]
    have e2 : psize (Packet.list (y :: yt)) = 1 + (psize y + lsize yt) := by simp [psize, lsize]
    have e3 : psize (Packet.list xt) = 1 + lsize xt := by simp [psize]
    have e4 : psize (Packet.list yt) = 1 + lsize yt := by simp [psize]
    have e5 : adjPart (Packet.list (x :: xt)) (Packet.list (y :: yt)) = 0 := rfl
    have e6 : adjPart (Packet.list xt) (Packet.list yt) = 0 := rfl
    have e7 : intFlag (Packet.list (x :: xt)) = 0 := rfl
    have e8 : intFlag (Packet.list (y :: yt)) = 0 := rfl
    have e9 : intFlag (Packet.list xt) = 0 := rfl
    have e10 : intFlag (Packet.list yt) = 0 := rfl
    omega

/-- `is_pair_sorted` with the default comparison function: a pair is sorted
when the comparison returns `0` or `1`. -/
def is_pair_sorted (l : Packet) (r : Packet) : Bool :=
  pairwise_comparison l r = 0 ∨ pairwise_comparison l r = 1

/-- C9: `pairwise_comparison` returns `1` ("left smaller"), not `0`
("equal"), on two empty lists, so comparing `[]` with itself never reports
equality, and `is_pair_sorted` classifies the pair of two empty lists as
sorted. -/
theorem c9_empty_pair_compares_smaller_not_equal :
    pairwise_comparison (.list []) (.list []) = 1
    ∧ pairwise_comparison (.list []) (.list []) ≠ 0
    ∧ is_pair_sorted (.list []) (.list []) = true := by
  have h : pairwise_comparison (.list []) (.list []) = 1 := by
    unfold pairwise_comparison
    simp [isEmptyPacket]
  refine ⟨h, by rw [h]; norm_num, by rw [is_pair_sorted, h]; norm_num⟩

end Day13

/-! ## Day 16 (2022): pruned pair search in `part_2`
(`src/22/day16/python/solution.py`) -/

namespace Day16

/-- `ScoredOrder`: a visiting order of valve indices together with the total
pressure released by processing it (`process_visiting_order`). -/
structure ScoredOrder where
  order : List ℕ
  score : ℤ

/-- Python's `set(h.order).intersection(e.order)` truthiness: the two orders
share at least one valve. -/
def sharesValve (h e : ScoredOrder) : Bool :=
  h.order.any (fun v => e.order.contains v)

/-- `itertools.combinations(l, 2)`: all pairs `(l[i], l[j])` with `i < j`, in
lexicographic index order. -/
def pairCombinations {α : Type} : List α → List (α × α)
  | [] => []
  | x :: xs => (xs.map (fun y => (x, y))) ++ pairCombinations xs

/-- The `part_2` pair loop: starting from `best_score = -inf`, break as soon
as twice the first order's score drops below the best score found, skip pairs
sharing a valve, and otherwise keep the maximum combined score. -/
def prunedLoop : List (ScoredOrder × ScoredOrder) → WithBot ℤ → WithBot ℤ
  | [], best => best
  | (h, e) :: rest, best =>
    if ((2 * h.score : ℤ) : WithBot ℤ) < best then best
    else if sharesValve h e then prunedLoop rest best
    else prunedLoop rest (max best ((h.score + e.score : ℤ) : WithBot ℤ))

/-- The same loop without the early `break`: the plain maximum over all
pairs with disjoint valve sets. -/
def unprunedLoop : List (ScoredOrder × ScoredOrder) → WithBot ℤ → WithBot ℤ
  | [], best => best
  | (h, e) :: rest, best =>
    if sharesValve h e then unprunedLoop rest best
    else unprunedLoop rest (max best ((h.score + e.score : ℤ) : WithBot ℤ))

/-- `sorted(orders_with_scores, key=lambda so: so.score, reverse=True)`. -/
def sortScoredDesc (l : List ScoredOrder) : List ScoredOrder :=
  l.insertionSort (fun a b => b.score ≤ a.score)

/-- The pruned search exactly as `part_2` runs it on a list of scored
visiting orders. -/
def part_2_best_score (orders : List ScoredOrder) : WithBot ℤ :=
  prunedLoop (pairCombinations (sortScoredDesc orders)) ⊥

/-- The unpruned specification value: the maximum, over all generated pairs
of visiting orders with disjoint valve sets, of the sum of the two scores
(`⊥` = `-inf` when no such pair exists). -/
def maxDisjointPairScore (orders : List ScoredOrder) : WithBot ℤ :=
  ((pairCombinations (sortScoredDesc orders)).filter
      (fun p => !(sharesValve p.1 p.2))).foldl
    (fun acc p => max acc ((p.1.score + p.2.score : ℤ) : WithBot ℤ)) ⊥

theorem mem_pairCombinations {α : Type} {l : List α} {p : α × α}
    (hp : p ∈ pairCombinations l) : p.1 ∈ l ∧ p.2 ∈ l := by
  induction l with
  | nil => simp [pairCombinations] at hp
  | cons x xs ih =>
    simp only [pairCombinations, List.mem_append, List.mem_map] at hp
    rcases hp with ⟨y, hy, rfl⟩ | hrec
    · exact ⟨List.mem_cons_self x xs, List.mem_cons_of_mem x hy⟩
    · obtain ⟨h1, h2⟩ := ih hrec
      exact ⟨List.mem_cons_of_mem x h1, List.mem_cons_of_mem x h2⟩

theorem pairCombinations_snd_le {l : List ScoredOrder}
    (hl : List.Pairwise (fun a b => b.score ≤ a.score) l) :
    ∀ p ∈ pairCombinations l, p.2.score ≤ p.1.score := by
  induction l with
  | nil => intro p hp; simp [pairCombinations] at hp
  | cons x xs ih =>
    intro p hp
    simp only [pairCombinations, List.mem_append, List.mem_map] at hp
    rcases hp with ⟨y, hy, rfl⟩ | hrec
    · exact (List.pairwise_cons.mp hl).1 y hy
    · exact ih (List.pairwise_cons.mp hl).2 p hrec

theorem pairCombinations_fst_pairwise {l : List ScoredOrder}
    (hl : List.Pairwise (fun a b => b.score ≤ a.score) l) :
    List.Pairwise (fun p q => q.1.score ≤ p.1.score) (pairCombinations l) := by
  induction l with
  | nil => simp [pairCombinations]
  | cons x xs ih =>
    obtain ⟨hx, hxs⟩ := List.pairwise_cons.mp hl
    rw [pairCombinations, List.pairwise_append]
    refine ⟨?_, ih hxs, ?_⟩
    · rw [List.pairwise_map]
      have htriv : List.Pairwise (fun (_ _ : ScoredOrder) => True) xs :=
        List.pairwise_of_forall (fun _ _ => trivial)
      exact htriv.imp (fun _ => le_refl x.score)
    · intro p hp q hq
      obtain ⟨y, _, hpy⟩ := List.mem_map.mp hp
      have hq1 : q.1 ∈ xs := (mem_pairCombinations hq).1
      rw [← hpy]
      exact hx q.1 hq1

theorem unprunedLoop_of_all_le {ps : List (ScoredOrder × ScoredOrder)}
    {best : WithBot ℤ}
    (h : ∀ p ∈ ps, ((p.1.score + p.2.score : ℤ) : WithBot ℤ) ≤ best) :
    unprunedLoop ps best = best := by
  induction ps with
  | nil => rfl
  | cons p rest ih =>
    obtain ⟨h1, e1⟩ := p
    rw [unprunedLoop]
    by_cases hs : sharesValve h1 e1
    · rw [if_pos hs]
      exact ih (fun q hq => h q (List.mem_cons_of_mem _ hq))
    · rw [if_neg hs]
      have hle := h (h1, e1) (List.mem_cons_self _ _)
      rw [max_eq_left hle]
      exact ih (fun q hq => h q (List.mem_cons_of_mem _ hq))

theorem prunedLoop_eq_unprunedLoop :
    ∀ (ps : List (ScoredOrder × ScoredOrder)) (best : WithBot ℤ),
      List.Pairwise (fun p q => q.1.score ≤ p.1.score) ps →
      (∀ p ∈ ps, p.2.score ≤ p.1.score) →
      prunedLoop ps best = unprunedLoop ps best := by
  intro ps
  induction ps with
  | nil => intro best _ _; rfl
  | cons p rest ih =>
    intro best hpair hsnd
    obtain ⟨h1, e1⟩ := p
    obtain ⟨hhead, htail⟩ := List.pairwise_cons.mp hpair
    by_cases hbrk : ((2 * h1.score : ℤ) : WithBot ℤ) < best
    · -- the break fires: every remaining combined score is below best
      have hall : ∀ q ∈ ((h1, e1) :: rest),
          ((q.1.score + q.2.score : ℤ) : WithBot ℤ) ≤ best := by
        intro q hq
        have hq2 : q.2.score ≤ q.1.score := hsnd q hq
        have hq1 : q.1.score ≤ h1.score := by
          rcases List.mem_cons.mp hq with rfl | hq'
          · exact le_refl _
          · exact hhead q hq'
        calc ((q.1.score + q.2.score : ℤ) : WithBot ℤ)
            ≤ ((2 * h1.score : ℤ) : WithBot ℤ) := by
              rw [WithBot.coe_le_coe]; omega
          _ ≤ best := le_of_lt hbrk
      rw [prunedLoop, if_pos hbrk, unprunedLoop_of_all_le hall]
    · rw [prunedLoop, if_neg hbrk, unprunedLoop]
      by_cases hs : sharesValve h1 e1
      · rw [if_pos hs, if_pos hs]
        exact ih best htail (fun q hq => hsnd q (List.mem_cons_of_mem _ hq))
      · rw [if_neg hs, if_neg hs]
        exact ih _ htail (fun q hq => hsnd q (List.mem_cons_of_mem _ hq))

theorem unprunedLoop_eq_filter_foldl :
    ∀ (ps : List (ScoredOrder × ScoredOrder)) (best : WithBot ℤ),
      unprunedLoop ps best =
        (ps.filter (fun p => !(sharesValve p.1 p.2))).foldl
          (fun acc p => max acc ((p.1.score + p.2.score : ℤ) : WithBot ℤ)) best := by
  intro ps
  induction ps with
  | nil => intro best; rfl
  | cons p rest ih =>
    intro best
    obtain ⟨h1, e1⟩ := p
    rw [unprunedLoop]
    by_cases hs : sharesValve h1 e1
    · rw [if_pos hs]
      have hf : ((h1, e1) :: rest).filter (fun p => !(sharesValve p.1 p.2))
          = rest.filter (fun p => !(sharesValve p.1 p.2)) := by
        simp [List.filter, hs]
      rw [hf]
      exact ih best
    · rw [if_neg hs]
      have hf : ((h1, e1) :: rest).filter (fun p => !(sharesValve p.1 p.2))
          = (h1, e1) :: rest.filter (fun p => !(sharesValve p.1 p.2)) := by
        simp [List.filter, hs]
      rw [hf, List.foldl_cons]
      exact ih _

theorem sortScoredDesc_pairwise (l : List ScoredOrder) :
    List.Pairwise (fun a b => b.score ≤ a.score) (sortScoredDesc l) := by
  haveI : IsTotal ScoredOrder (fun a b => b.score ≤ a.score) :=
    ⟨fun a b => le_total b.score a.score⟩
  haveI : IsTrans ScoredOrder (fun a b => b.score ≤ a.score) :=
    ⟨fun _ _ _ h1 h2 => le_trans h2 h1⟩
  exact List.sorted_insertionSort (fun a b => b.score ≤ a.score) l

/-- C3: on every list of scored visiting orders, day 16's `part_2` pruned
pair loop — iterating score-descending pairs, breaking once twice the first
score is below the best combined score, and skipping pairs that share a valve
— returns exactly the unpruned maximum, over all generated pairs with
disjoint valve sets, of the sum of the two scores. -/
theorem c3_part2_pruning_is_exact (orders : List ScoredOrder) :
    part_2_best_score orders = maxDisjointPairScore orders := by
  rw [part_2_best_score, maxDisjointPairScore, ← unprunedLoop_eq_filter_foldl]
  exact prunedLoop_eq_unprunedLoop _ ⊥
    (pairCombinations_fst_pairwise (sortScoredDesc_pairwise orders))
    (pairCombinations_snd_le (sortScoredDesc_pairwise orders))

end Day16

/-! ## Shared script-environment model

A path is its list of components; a filesystem maps a path to the list of
lines of the file stored there.  `Path(...).parent` drops the last component
and `joinpath` appends one. -/

/-- A filesystem path, as its components. -/
abbrev PathName : Type := List String

/-- File contents for every path: the list of lines of the file. -/
abbrev FileSys : Type := PathName → List String

/-- `Path.parent`. -/
def pathParent (p : PathName) : PathName := List.dropLast p

/-- `Path.joinpath` with a single name. -/
def pathJoin (p : PathName) (name : String) : PathName := p ++ [name]

/-- `Path(__file__)` for a 2022 solution script. -/
def solutionFileOf (day : String) : PathName :=
  ["src", "22", day, "python", "solution.py"]

/-- `Path(__file__).parent.parent.joinpath("inputs.txt")`, the default input
path used by almost every 2022 entry point. -/
def defaultPPOf (day : String) : PathName :=
  pathJoin (pathParent (pathParent (solutionFileOf day))) ("inputs.txt")

namespace Py

/-- Numeric value of a decimal digit character. -/
def digitVal (c : Char) : ℕ := c.toNat - 48

/-- Decimal value of a list of digits (most significant first). -/
def intOfDigits (ds : List ℕ) : ℕ := ds.foldl (fun acc d => 10 * acc + d) 0

/-- Tail of a Python integer literal after its first digit: further digits,
with single underscores allowed between digits only. -/
def digitsTail : List Char → Option (List ℕ)
  | [] => some []
  | ['_'] => none
  | '_' :: c :: rest =>
      if c.isDigit then (digitsTail rest).map (fun l => digitVal c :: l) else none
  | c :: rest =>
      if c.isDigit then (digitsTail rest).map (fun l => digitVal c :: l) else none

/-- Digits of a Python integer literal: at least one digit, underscores only
between digits. -/
def digitsAll : List Char → Option (List ℕ)
  | [] => none
  | c :: rest =>
      if c.isDigit then (digitsTail rest).map (fun l => digitVal c :: l) else none

/-- `s.strip()`: drop leading and trailing whitespace. -/
def pyStrip (s : String) : String :=
  ⟨((s.toList.dropWhile (fun c => c.isWhitespace)).reverse.dropWhile
      (fun c => c.isWhitespace)).reverse⟩

/-- Helper for splitting at every occurrence of a separator character. -/
def splitCharAux (sep : Char) : List Char → List Char → List String
  | [], cur => [⟨cur.reverse⟩]
  | c :: rest, cur =>
      if c = sep then (⟨cur.reverse⟩ : String) :: splitCharAux sep rest []
      else splitCharAux sep rest (c :: cur)

/-- `s.split(sep)` for a one-character separator: the pieces between
occurrences of `sep`, keeping empty pieces. -/
def pySplitChar (sep : Char) (s : String) : List String :=
  splitCharAux sep s.toList []

/-- Helper for whitespace splitting. -/
def pySplitWhiteAux : List Char → List Char → List String
  | [], cur => if cur.isEmpty then [] else [(⟨cur.reverse⟩ : String)]
  | c :: rest, cur =>
      if c.isWhitespace then
        if cur.isEmpty then pySplitWhiteAux rest []
        else (⟨cur.reverse⟩ : String) :: pySplitWhiteAux rest []
      else pySplitWhiteAux rest (c :: cur)

/-- `s.split()` with no argument: split on whitespace runs, discarding
empty pieces. -/
def pySplitWhite (s : String) : List String :=
  pySplitWhiteAux s.toList []

/-- Python's `int(s)` on a decimal string: strips whitespace, accepts an
optional sign and underscores between digits; anything else is a
`ValueError` (`none`).  (This is deliberately wider than "a run of digits":
`int` accepts inputs such as `"+5"` or `"1_0"`.) -/
def pyInt (s : String) : Option ℤ :=
  match (pyStrip s).toList with
  | '+' :: rest => (digitsAll rest).map (fun ds => (intOfDigits ds : ℤ))
  | '-' :: rest => (digitsAll rest).map (fun ds => -(intOfDigits ds : ℤ))
  | l => (digitsAll l).map (fun ds => (intOfDigits ds : ℤ))

/-- `max(l)` on a list of integers: `ValueError` on an empty list. -/
def pyMax (l : List ℤ) : Option ℤ :=
  match l with
  | [] => none
  | x :: xs => some (xs.foldl max x)

/-- `heapq.nlargest(n, l)`: the `n` largest elements, in descending order. -/
def pyNLargest (n : ℕ) (l : List ℤ) : List ℤ :=
  (l.insertionSort (fun a b => b ≤ a)).take n

/-- The physical lines `print(s)` writes to stdout: the string split at
newline characters (one empty line for the empty string). -/
def splitNlAux : List Char → List Char → List String
  | [], cur => [⟨cur.reverse⟩]
  | c :: rest, cur =>
      if c = '\n' then (⟨cur.reverse⟩ : String) :: splitNlAux rest []
      else splitNlAux rest (c :: cur)

/-- Lines printed by `print` applied to a (possibly multi-line) string. -/
def printedLines (s : String) : List String := splitNlAux s.toList []

theorem splitNlAux_ne_nil (cs cur : List Char) : splitNlAux cs cur ≠ [] := by
  induction cs generalizing cur with
  | nil => simp [splitNlAux]
  | cons c rest ih =>
    rw [splitNlAux]
    by_cases h : c = '\n'
    · rw [if_pos h]; simp
    · rw [if_neg h]; exact ih _

theorem printedLines_length_pos (s : String) : 1 ≤ (printedLines s).length := by
  rcases h : printedLines s with _ | ⟨a, l⟩
  · exact absurd h (splitNlAux_ne_nil s.toList [])
  · simp

end Py

/-! ## Day 1 (2022): calorie counting (`src/22/day1/python/solution.py`) -/

namespace Day1

/-- Default input path of `part_1_solution` (and of
`generate_elf_calories_from_file`): `Path(__file__).parent.parent / "inputs.txt"`. -/
def part_1_default : PathName := defaultPPOf ("day1")

/-- Default input path of `part_2_solution`:
`Path(__file__).parent / "inputs.txt"` — one `.parent` fewer than part 1. -/
def part_2_default : PathName := pathJoin (pathParent (solutionFileOf ("day1"))) ("inputs.txt")

/-- Grouping loop of `generate_elf_calories_from_file`: split the lines into
runs separated by blank lines, yielding the accumulated run at each blank
line and once more at end of file. -/
def elfGroupsRaw : List String → List String → List (List String)
  | [], acc => [acc]
  | l :: ls, acc =>
      if Py.pyStrip l = ("") then acc :: elfGroupsRaw ls []
      else elfGroupsRaw ls (acc ++ [l])

/-- `generate_elf_calories_from_file`, fully consumed: the per-elf lists of
`int(line.strip())` values read from `filepath`. -/
def generate_elf_calories_from_file (fs : FileSys) (filepath : PathName) :
    Option (List (List ℤ)) :=
  (elfGroupsRaw (fs filepath) []).mapM (fun g => g.mapM (fun l => Py.pyInt l))

/-- `carried_calories_per_elf`: documented to total its `elf_calories`
argument, but the source ignores that argument and instead re-reads
`generate_elf_calories_from_file()` at the default path. -/
def carried_calories_per_elf (fs : FileSys) (elf_calories : Option (List (List ℤ))) :
    Option (List ℤ) :=
  (generate_elf_calories_from_file fs part_1_default).map
    (fun gs => gs.map (fun (g : List ℤ) => g.sum))

/-- `part_1_solution(filepath)`: `max(carried_calories_per_elf(...))`. -/
def part_1_solution (fs : FileSys) (filepath : PathName) : Option ℤ :=
  (carried_calories_per_elf fs (generate_elf_calories_from_file fs filepath)).bind Py.pyMax

/-- `part_2_solution(filepath)`: sum of `heapq.nlargest(3, ...)`. -/
def part_2_solution (fs : FileSys) (filepath : PathName) : Option ℤ :=
  (carried_calories_per_elf fs (generate_elf_calories_from_file fs filepath)).map
    (fun (cs : List ℤ) => (Py.pyNLargest 3 cs).sum)

/-- `main`: the two stdout lines. -/
def main_lines (fs : FileSys) : Option (List String) := do
  let a ← part_1_solution fs part_1_default
  let b ← part_2_solution fs part_2_default
  pure ["PART 1: " ++ toString a, "PART 2: " ++ toString b]

/-- Modelled from the spec: the shape `parse(input) -> values ->
part_1(values) -> answer` applied to the contents of the file the caller
passed — the maximum per-elf calorie total parsed from those contents. -/
def answer_from_contents (lines : List String) : Option ℤ :=
  ((elfGroupsRaw lines []).mapM (fun (g : List String) => g.mapM (fun l => Py.pyInt l))).bind
    (fun gs => Py.pyMax (gs.map (fun (g : List ℤ) => g.sum)))

/-- A filesystem whose default day-1 input file holds `1` and whose file
`other.txt` holds `2`. -/
def fsTwoFiles : FileSys := fun p =>
  if p = part_1_default then ["1"]
  else if p = (["other.txt"] : PathName) then ["2"]
  else []

/-- C2 (failing input): calling day 1's `part_1_solution` with
`other.txt` (contents `2`) returns the answer for the default
`inputs.txt` (contents `1`), because `carried_calories_per_elf` ignores its
argument; the values parsed from the passed file would give `2`. -/
theorem c2_day1_part1_ignores_filepath :
    part_1_solution fsTwoFiles ["other.txt"] = some 1
    ∧ answer_from_contents (fsTwoFiles ["other.txt"]) = some 2
    ∧ (1 : ℤ) ≠ 2 := by
  refine ⟨rfl, rfl, by norm_num⟩

end Day1

/-! ## Day 4 (2022): assignment ranges (`src/22/day4/python/solution.py`) -/

namespace Day4

/-- Default input path of both entry points. -/
def default_path : PathName := defaultPPOf ("day4")

/-- `assignment_to_range_set`: `re.match` of `(\d+)-(\d+)` against the start
of the string (a non-matching string raises `ValueError`), then the set
`range(start, end + 1)`.  `re.match` only anchors at the start, so trailing
characters after the second digit run are accepted. -/
def assignment_to_range_set (s : String) : Option (Finset ℤ) :=
  let cs := s.toList
  let d1 := cs.takeWhile (fun c => c.isDigit)
  let r1 := cs.dropWhile (fun c => c.isDigit)
  if d1.isEmpty then none
  else
    match r1 with
    | c :: r2 =>
        if c = '-' then
          let d2 := r2.takeWhile (fun c => c.isDigit)
          if d2.isEmpty then none
          else some (Finset.Icc ((Py.intOfDigits (d1.map Py.digitVal) : ℤ))
              ((Py.intOfDigits (d2.map Py.digitVal) : ℤ)))
        else none
    | [] => none

/-- One iteration of `part_1`'s loop: split the line at the comma into
exactly two assignments (otherwise the tuple unpacking raises), parse both
ranges, and count `1` when either contains the other. -/
def countContained (l : String) : Option ℕ := do
  let pr ← match Py.pySplitChar ',' l with
    | [a, b] => some (a, b)
    | _ => none
  let left ← assignment_to_range_set pr.1
  let right ← assignment_to_range_set pr.2
  pure (if left ⊆ right ∨ right ⊆ left then 1 else 0)

/-- `part_1`: number of pairs where one range contains the other. -/
def part_1 (lines : List String) : Option ℕ :=
  (lines.mapM countContained).map List.sum

/-- One iteration of `part_2`'s loop: count `1` when the ranges overlap. -/
def countOverlapping (l : String) : Option ℕ := do
  let pr ← match Py.pySplitChar ',' l with
    | [a, b] => some (a, b)
    | _ => none
  let left ← assignment_to_range_set pr.1
  let right ← assignment_to_range_set pr.2
  pure (if (left ∩ right).Nonempty ∨ (right ∩ left).Nonempty then 1 else 0)

/-- `part_2`: number of pairs of overlapping ranges. -/
def part_2 (lines : List String) : Option ℕ :=
  (lines.mapM countOverlapping).map List.sum

/-- `main`: the two stdout lines. -/
def main_lines (fs : FileSys) : Option (List String) := do
  let a ← part_1 (fs default_path)
  let b ← part_2 (fs default_path)
  pure [toString a, toString b]

/-- A digit run, a dash and a digit run, at the start of the string: what the
source's `re.match` actually requires of an assignment. -/
def lenientRangeOk (s : String) : Bool :=
  let cs := s.toList
  let d1 := cs.takeWhile (fun c => c.isDigit)
  let r1 := cs.dropWhile (fun c => c.isDigit)
  !d1.isEmpty &&
    (match r1 with
     | c :: r2 => c = '-' && !(r2.takeWhile (fun c => c.isDigit)).isEmpty
     | [] => false)

/-- A line the source's parsing accepts: exactly one comma, and each side
starts with `digits-digits`. -/
def lenientLineOk (l : String) : Bool :=
  match Py.pySplitChar ',' l with
  | [a, b] => lenientRangeOk a && lenientRangeOk b
  | _ => false

/-- An assignment that is exactly `digits-digits`, nothing more. -/
def strictRangeOk (s : String) : Bool :=
  let cs := s.toList
  let d1 := cs.takeWhile (fun c => c.isDigit)
  let r1 := cs.dropWhile (fun c => c.isDigit)
  !d1.isEmpty &&
    (match r1 with
     | c :: r2 => c = '-' && !r2.isEmpty && r2.all (fun c => c.isDigit)
     | [] => false)

/-- Modelled from the spec: an input file "matching the specific puzzle's
format" for day 4 — every line is exactly `A-B,C-D` with `A`..`D` non-empty
decimal digit runs. -/
def day4WellFormed (lines : List String) : Bool :=
  lines.all (fun l =>
    match Py.pySplitChar ',' l with
    | [a, b] => strictRangeOk a && strictRangeOk b
    | _ => false)

/-- C4 (counterexample): the input line `1-2,3-4x` does not match the day 4
puzzle format, yet the script's parsing does not raise: `part_1` runs to
completion and returns `0`.  `re.match` ignores the trailing `x`. -/
theorem c4_counterexample_day4_accepts_malformed :
    day4WellFormed ["1-2,3-4x"] = false
    ∧ part_1 ["1-2,3-4x"] = some 0 := by
  refine ⟨by decide, by decide⟩

theorem assignment_isSome_iff_lenient (s : String) :
    (assignment_to_range_set s).isSome = lenientRangeOk s := by
  simp only [assignment_to_range_set, lenientRangeOk]
  cases hd1 : (s.toList.takeWhile (fun c => c.isDigit)).isEmpty with
  | true => simp [hd1]
  | false =>
    simp only [hd1, Bool.false_eq_true, if_false, Bool.not_false, Bool.true_and]
    cases hr : s.toList.dropWhile (fun c => c.isDigit) with
    | nil => simp
    | cons c r2 =>
      by_cases hc : c = '-'
      · subst hc
        cases hd2 : (r2.takeWhile (fun c => c.isDigit)).isEmpty with
        | true => simp [hd2]
        | false => simp [hd2]
      · simp [hc]

theorem countContained_isSome (l : String) :
    (countContained l).isSome = lenientLineOk l := by
  rw [countContained, lenientLineOk]
  rcases hsp : Py.pySplitChar ',' l with _ | ⟨a, _ | ⟨b, _ | ⟨c, t⟩⟩⟩
  · simp
  · simp
  · have ha := assignment_isSome_iff_lenient a
    have hb := assignment_isSome_iff_lenient b
    cases hra : assignment_to_range_set a <;>
      cases hrb : assignment_to_range_set b <;>
        simp_all
  · simp

theorem countOverlapping_isSome (l : String) :
    (countOverlapping l).isSome = lenientLineOk l := by
  rw [countOverlapping, lenientLineOk]
  rcases hsp : Py.pySplitChar ',' l with _ | ⟨a, _ | ⟨b, _ | ⟨c, t⟩⟩⟩
  · simp
  · simp
  · have ha := assignment_isSome_iff_lenient a
    have hb := assignment_isSome_iff_lenient b
    cases hra : assignment_to_range_set a <;>
      cases hrb : assignment_to_range_set b <;>
        simp_all
  · simp

theorem mapM_countContained_isSome (lines : List String) :
    (lines.mapM countContained).isSome = lines.all lenientLineOk := by
  induction lines with
  | nil => rfl
  | cons l ls ih =>
    have hl := countContained_isSome l
    rw [List.mapM_cons, List.all_cons, ← hl, ← ih]
    cases hc : countContained l <;> cases hm : ls.mapM countContained <;> simp [hc, hm]

theorem mapM_countOverlapping_isSome (lines : List String) :
    (lines.mapM countOverlapping).isSome = lines.all lenientLineOk := by
  induction lines with
  | nil => rfl
  | cons l ls ih =>
    have hl := countOverlapping_isSome l
    rw [List.mapM_cons, List.all_cons, ← hl, ← ih]
    cases hc : countOverlapping l <;> cases hm : ls.mapM countOverlapping <;> simp [hc, hm]

/-- C4 (amended): day 4's parsing raises an unhandled error — `none`
propagating out of both `part_1` and `part_2`, with no handler anywhere —
exactly on inputs where some line fails even the lenient structural check
(one comma; each side starting with `digits-digits`); inputs outside the
exact puzzle format but passing that lenient check (such as trailing junk
after the second range) are accepted without error. -/
theorem c4_amended_parse_error_iff_lenient_check_fails (lines : List String) :
    (part_1 lines).isSome = lines.all lenientLineOk
    ∧ (part_2 lines).isSome = lines.all lenientLineOk := by
  constructor
  · rw [part_1, ← mapM_countContained_isSome lines]
    cases h : lines.mapM countContained <;> simp [h]
  · rw [part_2, ← mapM_countOverlapping_isSome lines]
    cases h : lines.mapM countOverlapping <;> simp [h]

end Day4

/-! ## Day 10 (2022): CRT screen (`src/22/day10/python/solution.py`) -/

namespace Day10

/-- Default input path of both entry points. -/
def default_path : PathName := defaultPPOf ("day10")

/-- `generate_instructions`, fully consumed: each line becomes
`(num_cycles, register_increase)` — `noop` is `(1, 0)`, `addx n` is
`(2, n)`; a line that is neither raises (`none`). -/
def generate_instructions (lines : List String) : Option (List (ℕ × ℤ)) :=
  lines.mapM (fun l0 =>
    let l := Py.pyStrip l0
    if l = ("noop") then some (1, (0 : ℤ))
    else
      match Py.pySplitWhite l with
      | [name, num] =>
          if name = ("addx") then (Py.pyInt num).map (fun v => ((2 : ℕ), v))
          else none
      | _ => none)

/-- Inner cycle loop of `report_cycle_values` for one instruction: walk the
cycle indices, yielding `(next_cycle_to_report, register_value)` and bumping
the report checkpoint by `40` whenever it is hit. -/
def innerReport : List ℕ → ℕ → ℤ → ℕ → (List (ℕ × ℤ) × ℕ)
  | [], _, _, nr => ([], nr)
  | i :: is, processed, reg, nr =>
      if processed + i = nr then
        let res := innerReport is processed reg (nr + 40)
        ((nr, reg) :: res.1, res.2)
      else innerReport is processed reg nr

/-- Outer loop of `report_cycle_values` over the instruction list. -/
def reportLoop : List (ℕ × ℤ) → ℕ → ℤ → ℕ → List (ℕ × ℤ)
  | [], _, _, _ => []
  | (ncyc, inc) :: rest, processed, reg, nr =>
      let res := innerReport (List.range' 1 ncyc) processed reg nr
      res.1 ++ reportLoop rest (processed + ncyc) (reg + inc) res.2

/-- `report_cycle_values` with the default checkpoints 20, 60, 100, …. -/
def report_cycle_values (instrs : List (ℕ × ℤ)) : List (ℕ × ℤ) :=
  reportLoop instrs 0 1 20

/-- `part_1` on parsed instructions: sum of cycle index times register
value over the reported checkpoints. -/
def part_1 (instrs : List (ℕ × ℤ)) : ℤ :=
  (report_cycle_values instrs).foldl (fun acc pr => acc + (pr.1 : ℤ) * pr.2) 0

/-- Inner cycle loop of `part_2` for one instruction: draw one CRT character
per cycle (`#` when the current column is under the ringed sprite, `.`
otherwise) and flush the row every 40 cycles. -/
def crtInner : List ℕ → ℕ → ℤ → List String → List Char → (List String × List Char)
  | [], _, _, rows, cur => (rows, cur)
  | i :: is, processed, base, rows, cur =>
      let ch :=
        if (cur.length : ℤ) = base ∨ (cur.length : ℤ) = base + 1 ∨ (cur.length : ℤ) = base + 2
        then '#' else '.'
      let cur2 := cur ++ [ch]
      if (processed + i) % 40 = 0 then crtInner is processed base (rows ++ [(⟨cur2⟩ : String)]) []
      else crtInner is processed base rows cur2

/-- Outer loop of `part_2` over the instruction list; the sprite base starts
at `0` (positions `[0, 1, 2]`) and shifts by each register increase. -/
def crtLoop : List (ℕ × ℤ) → ℕ → ℤ → List String → List Char → List String
  | [], _, _, rows, _ => rows
  | (ncyc, inc) :: rest, processed, base, rows, cur =>
      let res := crtInner (List.range' 1 ncyc) processed base rows cur
      crtLoop rest (processed + ncyc) (base + inc) res.1 res.2

/-- `part_2` on parsed instructions: the CRT rows joined with newlines
(an unfinished final row is discarded, exactly as in the source). -/
def part_2 (instrs : List (ℕ × ℤ)) : String :=
  String.intercalate ("\n") (crtLoop instrs 0 0 [] [])

/-- `main`: one line for part 1, a bare `Part 2:` header line, then
`print(part_2(...))`, whose multi-line string occupies one stdout line per
CRT row. -/
def main_lines (fs : FileSys) : Option (List String) := do
  let instrs ← generate_instructions (fs default_path)
  pure (["Part 1: " ++ toString (part_1 instrs), "Part 2:"]
    ++ Py.printedLines (part_2 instrs))

/-- A filesystem whose day 10 input file holds the single line `noop`. -/
def fsNoop : FileSys := fun p => if p = default_path then ["noop"] else []

/-- C5 (counterexample): on the single-instruction input `noop`, day 10's
`main` writes three lines to stdout (`Part 1: 0`, the header `Part 2:`, and
one CRT line), not exactly two. -/
theorem c5_counterexample_day10_main_writes_three_lines :
    (main_lines fsNoop).map List.length = some 3 ∧ (3 : ℕ) ≠ 2 := by
  refine ⟨by decide, by norm_num⟩

end Day10

/-! ## Day 25 `main` (`src/22/day25/python/solution.py`) -/

namespace Day25

/-- Default input path of `parse_inputs` and `part_1`. -/
def default_path : PathName := defaultPPOf ("day25")

/-- `parse_inputs`: the stripped lines of the input file. -/
def parse_inputs (fs : FileSys) : List String :=
  (fs default_path).map (fun l => Py.pyStrip l)

/-- `part_1`: the SNAFU representation of the sum of the SNAFU numbers in
the input file.  (On a negative sum the source's `decimal_to_base` loop
would not terminate; that case is modelled as `none`, like an error.) -/
def part_1_value (fs : FileSys) : Option String := do
  let vals ← (parse_inputs fs).mapM snafu_to_decimal
  let total := vals.sum
  if 0 ≤ total then decimal_to_snafu total.toNat else none

/-- `main`: the part 1 line and the fixed placeholder line
`Part 2: There is no part 2 :(` — there is no part-2 computation. -/
def main_lines (fs : FileSys) : Option (List String) := do
  let s ← part_1_value fs
  pure (["Part 1: " ++ s, "Part 2: There is no part 2 :("])

end Day25

/-! ## Claims about the scripts' mains and default paths -/

/-- C5 (amended): each embedded script main writes its answers to stdout,
but not always as exactly two answer-carrying lines: day 1 and day 4 write
exactly two lines, day 25 writes two lines whose second is the fixed
placeholder `Part 2: There is no part 2 :(` rather than a computed answer,
and day 10 writes at least three lines (a `Part 2:` header followed by the
multi-line CRT image). -/
theorem c5_amended_main_line_shapes (fs : FileSys) :
    (∀ ls, Day1.main_lines fs = some ls → ls.length = 2)
    ∧ (∀ ls, Day4.main_lines fs = some ls → ls.length = 2)
    ∧ (∀ ls, Day25.main_lines fs = some ls →
        ls.length = 2 ∧ ls.getD 1 ("") = ("Part 2: There is no part 2 :("))
    ∧ (∀ ls, Day10.main_lines fs = some ls → 3 ≤ ls.length) := by
  refine ⟨?_, ?_, ?_, ?_⟩
  · intro ls h
    cases ha : Day1.part_1_solution fs Day1.part_1_default with
    | none => rw [Day1.main_lines, ha] at h; simp at h
    | some a =>
      cases hb : Day1.part_2_solution fs Day1.part_2_default with
      | none => rw [Day1.main_lines, ha, hb] at h; simp at h
      | some b =>
        rw [Day1.main_lines, ha, hb] at h
        simp at h
        subst h
        rfl
  · intro ls h
    cases ha : Day4.part_1 (fs Day4.default_path) with
    | none => rw [Day4.main_lines, ha] at h; simp at h
    | some a =>
      cases hb : Day4.part_2 (fs Day4.default_path) with
      | none => rw [Day4.main_lines, ha, hb] at h; simp at h
      | some b =>
        rw [Day4.main_lines, ha, hb] at h
        simp at h
        subst h
        rfl
  · intro ls h
    cases ha : Day25.part_1_value fs with
    | none => rw [Day25.main_lines, ha] at h; simp at h
    | some s =>
      rw [Day25.main_lines, ha] at h
      simp at h
      subst h
      exact ⟨rfl, rfl⟩
  · intro ls h
    cases ha : Day10.generate_instructions (fs Day10.default_path) with
    | none => rw [Day10.main_lines, ha] at h; simp at h
    | some instrs =>
      rw [Day10.main_lines, ha] at h
      simp at h
      subst h
      have hpos := Py.printedLines_length_pos (Day10.part_2 instrs)
      simp only [List.length_append, List.length_cons, List.length_nil]
      omega

/-- A filesystem with small valid inputs for days 1, 4, 10 and 25. -/
def fsSample : FileSys := fun p =>
  if p = Day1.part_1_default then ["1"]
  else if p = Day4.default_path then ["1-2,3-4"]
  else if p = Day10.default_path then ["noop"]
  else if p = Day25.default_path then ["2"]
  else []

theorem c5_amended_witness :
    ((["PART 1: 1", "PART 2: 1"] : List String).length = 2)
    ∧ ((["0", "0"] : List String).length = 2)
    ∧ ((["Part 1: 2", "Part 2: There is no part 2 :("] : List String).length = 2
        ∧ (["Part 1: 2", "Part 2: There is no part 2 :("] : List String).getD 1 ("")
          = ("Part 2: There is no part 2 :("))
    ∧ 3 ≤ (["Part 1: 0", "Part 2:", ""] : List String).length := by
  have h := c5_amended_main_line_shapes fsSample
  have hdig : Nat.digits 5 2 = [2] := Nat.digits_of_lt 5 2 (by norm_num) (by norm_num)
  have hbase : Day25.decimal_to_base 2 = ("2") := by
    unfold Day25.decimal_to_base
    rw [hdig]
    rfl
  have hsn : Day25.decimal_to_snafu 2 = some ("2") := by
    unfold Day25.decimal_to_snafu
    rw [hbase]
    rfl
  have hstep : Day25.main_lines fsSample
      = (Day25.decimal_to_snafu 2).bind
          (fun s => some ["Part 1: " ++ s, "Part 2: There is no part 2 :("]) := rfl
  have h25 : Day25.main_lines fsSample
      = some ["Part 1: 2", "Part 2: There is no part 2 :("] := by
    rw [hstep, hsn]
    rfl
  exact ⟨h.1 _ (by decide), h.2.1 _ (by decide), h.2.2.1 _ h25, h.2.2.2 _ (by decide)⟩

/-- C6 (counterexample): day 1's two public entry points do not default to
the same relative input path — `part_1_solution` defaults to
`day1/inputs.txt` (two `.parent`s up from the script) while
`part_2_solution` defaults to `day1/python/inputs.txt` (one `.parent`). -/
theorem c6_counterexample_day1_default_paths_differ :
    Day1.part_1_default ≠ Day1.part_2_default := by decide

/-- C6 (amended): in every embedded 2022 script the part-1 and part-2 entry
points default to the shared relative path `src/22/<day>/inputs.txt`
resolved from the script location, with one exception — day 1's
`part_2_solution` defaults to `src/22/day1/python/inputs.txt`, one
directory deeper, so its two entry points disagree; still, day 1's `main`
reads only the part-1 default file (the generator built from the part-2
path is never consumed), so its output depends on that one file alone. -/
theorem c6_amended_default_paths :
    (∀ day : String, defaultPPOf day = ["src", "22", day, "inputs.txt"])
    ∧ Day1.part_1_default = ["src", "22", "day1", "inputs.txt"]
    ∧ Day1.part_2_default = ["src", "22", "day1", "python", "inputs.txt"]
    ∧ Day1.part_1_default ≠ Day1.part_2_default
    ∧ (∀ fs fs' : FileSys, fs Day1.part_1_default = fs' Day1.part_1_default →
        Day1.main_lines fs = Day1.main_lines fs') := by
  refine ⟨fun day => rfl, rfl, rfl, by decide, ?_⟩
  intro fs fs' hagree
  simp only [Day1.main_lines, Day1.part_1_solution, Day1.part_2_solution,
    Day1.carried_calories_per_elf, Day1.generate_elf_calories_from_file]
  rw [hagree]

/-- A second filesystem agreeing with `fsSample` on day 1's part-1 default
path but differing everywhere else. -/
def fsC6 : FileSys := fun p => if p = Day1.part_1_default then ["1"] else ["junk"]

theorem c6_amended_witness : Day1.main_lines fsSample = Day1.main_lines fsC6 :=
  c6_amended_default_paths.2.2.2.2 fsSample fsC6 (by decide)

/-! ## Day 12 (2022): BFS over the heightmap
(`src/22/day12/python/solution.py`)

The heightmap is the list of input lines; a position is a `(row, column)`
pair of natural numbers.  The mutable `steps` matrix becomes a function
`(ℕ × ℕ) → Option ℕ` (`none` is `math.inf`), and the `while index_queue:`
loop becomes a fuel-indexed loop, with fuel provably sufficient for the
queue to drain (`bfsLoop_inv` below shows the final queue is empty). -/

namespace Day12

/-- Number of heightmap rows, `len(heightmap)`. -/
def numRows (hm : List String) : ℕ := hm.length

/-- Number of heightmap columns, `len(heightmap[0])`. -/
def numColumns (hm : List String) : ℕ := (hm.headD ("")).length

/-- `height_at_position` on a single letter: `S` counts as `a`, `E` as `z`,
anything else as its own code point. -/
def heightLetter (c : Char) : ℕ :=
  if c = 'S' then ('a').toNat else if c = 'E' then ('z').toNat else c.toNat

/-- `height_at_position`: the height of the letter at the given row and
column (all uses below are guarded to be in bounds). -/
def height_at_position (hm : List String) (r c : ℕ) : ℕ :=
  heightLetter ((hm.getD r ("")).toList.getD c 'a')

/-- A position whose row and column indices are inside the grid. -/
def inBounds (hm : List String) (p : ℕ × ℕ) : Prop :=
  p.1 < numRows hm ∧ p.2 < numColumns hm

instance (hm : List String) (p : ℕ × ℕ) : Decidable (inBounds hm p) :=
  inferInstanceAs (Decidable (p.1 < numRows hm ∧ p.2 < numColumns hm))

/-- The four step offsets tried by the BFS, in source order. -/
def stepOffsets : List (ℤ × ℤ) := [(1, 0), (-1, 0), (0, 1), (0, -1)]

/-- One legal move: `q` is an in-bounds orthogonal neighbour of `p` whose
elevation is at most the elevation of `p` plus one. -/
def Adj (hm : List String) (p q : ℕ × ℕ) : Prop :=
  inBounds hm q
  ∧ (∃ off ∈ stepOffsets, (q.1 : ℤ) = (p.1 : ℤ) + off.1 ∧ (q.2 : ℤ) = (p.2 : ℤ) + off.2)
  ∧ height_at_position hm q.1 q.2 ≤ height_at_position hm p.1 p.2 + 1

instance (hm : List String) (p q : ℕ × ℕ) : Decidable (Adj hm p q) :=
  inferInstanceAs (Decidable (_ ∧ _ ∧ _))

/-- `PathN hm p q n`: there is a walk of exactly `n` legal moves from `p`
to `q`. -/
inductive PathN (hm : List String) : (ℕ × ℕ) → (ℕ × ℕ) → ℕ → Prop where
  | refl (p : ℕ × ℕ) : PathN hm p p 0
  | step {p q r : ℕ × ℕ} {n : ℕ} :
      PathN hm p q n → Adj hm q r → PathN hm p r (n + 1)

/-- BFS state: the `steps` matrix and the index queue. -/
structure BfsState where
  steps : (ℕ × ℕ) → Option ℕ
  queue : List (ℕ × ℕ)

/-- Write one cell of the `steps` matrix. -/
def updateSteps (st : (ℕ × ℕ) → Option ℕ) (p : ℕ × ℕ) (v : Option ℕ) :
    (ℕ × ℕ) → Option ℕ :=
  fun q => if q = p then v else st q

/-- The neighbour cell reached from `cur` by one offset
(`new_row_index, new_column_index`, clamped to `ℕ` after the bounds check). -/
def offTarget (cur : ℕ × ℕ) (off : ℤ × ℤ) : ℕ × ℕ :=
  (((cur.1 : ℤ) + off.1).toNat, ((cur.2 : ℤ) + off.2).toNat)

/-- The guard of the BFS inner loop: the neighbour is in bounds, still at
`inf`, and its elevation exceeds the current one by at most `1`. -/
def visitCond (hm : List String) (cur : ℕ × ℕ) (st : (ℕ × ℕ) → Option ℕ)
    (off : ℤ × ℤ) : Prop :=
  0 ≤ (cur.1 : ℤ) + off.1 ∧ (cur.1 : ℤ) + off.1 < (numRows hm : ℤ)
  ∧ 0 ≤ (cur.2 : ℤ) + off.2 ∧ (cur.2 : ℤ) + off.2 < (numColumns hm : ℤ)
  ∧ st (offTarget cur off) = none
  ∧ height_at_position hm (offTarget cur off).1 (offTarget cur off).2
      ≤ height_at_position hm cur.1 cur.2 + 1

instance (hm : List String) (cur : ℕ × ℕ) (st : (ℕ × ℕ) → Option ℕ) (off : ℤ × ℤ) :
    Decidable (visitCond hm cur st off) :=
  inferInstanceAs (Decidable (_ ∧ _ ∧ _ ∧ _ ∧ _ ∧ _))

/-- Process one step offset for the dequeued cell `cur`: if the neighbour is
in bounds, still at `inf`, and at most one higher, set its step count to
`steps[cur] + 1` and append it to the pending queue additions. -/
def visitOne (hm : List String) (cur : ℕ × ℕ)
    (acc : ((ℕ × ℕ) → Option ℕ) × List (ℕ × ℕ)) (off : ℤ × ℤ) :
    ((ℕ × ℕ) → Option ℕ) × List (ℕ × ℕ) :=
  if visitCond hm cur acc.1 off then
    (updateSteps acc.1 (offTarget cur off) ((acc.1 (cur.1, cur.2)).map (fun d => d + 1)),
      acc.2 ++ [offTarget cur off])
  else acc

/-- Process all four offsets of the dequeued cell. -/
def visitNeighbors (hm : List String) (st : (ℕ × ℕ) → Option ℕ) (cur : ℕ × ℕ) :
    ((ℕ × ℕ) → Option ℕ) × List (ℕ × ℕ) :=
  stepOffsets.foldl (visitOne hm cur) (st, [])

/-- The `while index_queue:` loop, indexed by fuel. -/
def bfsLoop (hm : List String) : ℕ → BfsState → BfsState
  | 0, s => s
  | fuel + 1, s =>
    match s.queue with
    | [] => s
    | cur :: rest =>
      let res := visitNeighbors hm s.steps cur
      bfsLoop hm fuel ⟨res.1, rest ++ res.2⟩

/-- The initial `steps` matrix: `inf` everywhere except `0` at the start. -/
def initSteps (hm : List String) (start : ℕ × ℕ) : (ℕ × ℕ) → Option ℕ :=
  updateSteps (fun _ => none) start (some 0)

/-- Enough fuel for the loop to drain the queue: five times the cell count
plus one strictly dominates the loop measure. -/
def bfsFuel (hm : List String) : ℕ := 5 * (numRows hm * numColumns hm) + 1

/-- `breadth_first_height_search`: run the BFS from the start position and
return the step count recorded at the goal (`none` = `math.inf`). -/
def breadth_first_height_search (hm : List String) (start goal : ℕ × ℕ) : Option ℕ :=
  (bfsLoop hm (bfsFuel hm) ⟨initSteps hm start, [start]⟩).steps goal

/-- `positions_with_elevation_letter`: the row-major list of positions whose
raw letter equals the given one. -/
def positions_with_elevation_letter (hm : List String) (letter : Char) : List (ℕ × ℕ) :=
  (List.range (numRows hm)).flatMap (fun r =>
    ((List.range (numColumns hm)).filter
        (fun c => (hm.getD r ("")).toList.getD c ' ' = letter)).map (fun c => (r, c)))

/-- The value of a `steps` entry as an extended natural (`none` = `inf`). -/
def toENat (o : Option ℕ) : ℕ∞ :=
  match o with
  | none => ⊤
  | some n => (n : ℕ∞)

/-- The minimum in `part_2`: the least BFS distance to the goal over all
`'a'`-positions (`⊤` only when the list is empty, where Python would raise). -/
def part_2_min (hm : List String) (goal : ℕ × ℕ) : ℕ∞ :=
  ((positions_with_elevation_letter hm 'a').map
    (fun p => toENat (breadth_first_height_search hm p goal))).foldr min ⊤

/-- All grid cells, as a finite set. -/
def gridCells (hm : List String) : Finset (ℕ × ℕ) :=
  Finset.range (numRows hm) ×ˢ Finset.range (numColumns hm)

/-- Number of cells still at `inf`. -/
def unvisited (hm : List String) (st : (ℕ × ℕ) → Option ℕ) : ℕ :=
  ((gridCells hm).filter (fun p => st p = none)).card

end Day12

namespace Day12


theorem visitOne_fst_preserves {hm : List String} {cur : ℕ × ℕ}
    {acc : ((ℕ × ℕ) → Option ℕ) × List (ℕ × ℕ)} {off : ℤ × ℤ} {p : ℕ × ℕ} {k : ℕ}
    (h : acc.1 p = some k) : (visitOne hm cur acc off).1 p = some k := by
  simp only [visitOne]
  split
  · rename_i hcond
    have hnone : acc.1 (offTarget cur off) = none := hcond.2.2.2.2.1
    simp only [updateSteps]
    rw [if_neg]
    · exact h
    · intro heq
      rw [heq] at h
      exact Option.noConfusion (h.symm.trans hnone)
  · exact h

theorem visitOne_fst_cur {hm : List String} {cur : ℕ × ℕ}
    {acc : ((ℕ × ℕ) → Option ℕ) × List (ℕ × ℕ)} {off : ℤ × ℤ}
    (hoff : off ∈ stepOffsets) :
    (visitOne hm cur acc off).1 (cur.1, cur.2) = acc.1 (cur.1, cur.2) := by
  simp only [visitOne]
  split
  · rename_i hcond
    have h0r : 0 ≤ (cur.1 : ℤ) + off.1 := hcond.1
    have h0c : 0 ≤ (cur.2 : ℤ) + off.2 := hcond.2.2.1
    simp only [updateSteps]
    rw [if_neg]
    intro heq
    simp only [offTarget, Prod.mk.injEq] at heq
    obtain ⟨he1, he2⟩ := heq
    fin_cases hoff <;> omega
  · rfl

theorem visitCond_adj {hm : List String} {cur : ℕ × ℕ} {st : (ℕ × ℕ) → Option ℕ}
    {off : ℤ × ℤ} (hoff : off ∈ stepOffsets) (h : visitCond hm cur st off) :
    Adj hm cur (offTarget cur off) := by
  unfold visitCond at h
  obtain ⟨h0r, hrlt, h0c, hclt, hnone, hh⟩ := h
  refine ⟨⟨?_, ?_⟩, ⟨off, hoff, ?_, ?_⟩, hh⟩
  · simp only [offTarget]
    omega
  · simp only [offTarget]
    omega
  · simp only [offTarget]
    exact Int.toNat_of_nonneg h0r
  · simp only [offTarget]
    exact Int.toNat_of_nonneg h0c

theorem adj_exists_off {hm : List String} {cur q : ℕ × ℕ} (h : Adj hm cur q) :
    ∃ off ∈ stepOffsets, q = offTarget cur off
      ∧ (q.1 : ℤ) = (cur.1 : ℤ) + off.1 ∧ (q.2 : ℤ) = (cur.2 : ℤ) + off.2 := by
  obtain ⟨hb, hex, hh⟩ := h
  obtain ⟨off, hoffmem, h1, h2⟩ := hex
  refine ⟨off, hoffmem, ?_, h1, h2⟩
  obtain ⟨q1, q2⟩ := q
  simp only [offTarget, Prod.mk.injEq]
  constructor <;> omega

theorem adj_visitCond {hm : List String} {cur q : ℕ × ℕ} {st : (ℕ × ℕ) → Option ℕ}
    {off : ℤ × ℤ} (hadj : Adj hm cur q) (hqe : q = offTarget cur off)
    (h1 : (q.1 : ℤ) = (cur.1 : ℤ) + off.1) (h2 : (q.2 : ℤ) = (cur.2 : ℤ) + off.2)
    (hnone : st q = none) : visitCond hm cur st off := by
  obtain ⟨⟨hb1, hb2⟩, _, hh⟩ := hadj
  unfold visitCond
  rw [← hqe]
  refine ⟨by omega, ?_, by omega, ?_, hnone, hh⟩
  · rw [← h1]
    exact_mod_cast hb1
  · rw [← h2]
    exact_mod_cast hb2

theorem foldVisit_fst_preserves {hm : List String} {cur : ℕ × ℕ} :
    ∀ (offs : List (ℤ × ℤ)) (acc : ((ℕ × ℕ) → Option ℕ) × List (ℕ × ℕ))
      (p : ℕ × ℕ) (k : ℕ), acc.1 p = some k →
      (offs.foldl (visitOne hm cur) acc).1 p = some k := by
  intro offs
  induction offs with
  | nil => intro acc p k h; exact h
  | cons off offs ih =>
    intro acc p k h
    rw [List.foldl_cons]
    exact ih _ p k (visitOne_fst_preserves h)

theorem foldVisit_fst_cur {hm : List String} {cur : ℕ × ℕ} :
    ∀ (offs : List (ℤ × ℤ)), (∀ off ∈ offs, off ∈ stepOffsets) →
      ∀ (acc : ((ℕ × ℕ) → Option ℕ) × List (ℕ × ℕ)),
      (offs.foldl (visitOne hm cur) acc).1 (cur.1, cur.2) = acc.1 (cur.1, cur.2) := by
  intro offs
  induction offs with
  | nil => intro _ acc; rfl
  | cons off offs ih =>
    intro hsub acc
    rw [List.foldl_cons]
    rw [ih (fun o ho => hsub o (List.mem_cons_of_mem off ho)) _]
    exact visitOne_fst_cur (hsub off (List.mem_cons_self off offs))

theorem foldVisit_snd_mono {hm : List String} {cur : ℕ × ℕ} :
    ∀ (offs : List (ℤ × ℤ)) (acc : ((ℕ × ℕ) → Option ℕ) × List (ℕ × ℕ))
      (p : ℕ × ℕ), p ∈ acc.2 → p ∈ (offs.foldl (visitOne hm cur) acc).2 := by
  intro offs
  induction offs with
  | nil => intro acc p h; exact h
  | cons off offs ih =>
    intro acc p h
    rw [List.foldl_cons]
    refine ih _ p ?_
    simp only [visitOne]
    split
    · exact List.mem_append_left _ h
    · exact h

end Day12

namespace Day12

theorem unvisited_update {hm : List String} {st : (ℕ × ℕ) → Option ℕ} {np : ℕ × ℕ}
    (hb1 : np.1 < numRows hm) (hb2 : np.2 < numColumns hm) (hnone : st np = none) (x : ℕ) :
    unvisited hm (updateSteps st np (some x)) + 1 = unvisited hm st := by
  unfold unvisited
  have hmem : np ∈ (gridCells hm).filter (fun p => st p = none) := by
    simp only [gridCells, Finset.mem_filter, Finset.mem_product, Finset.mem_range]
    exact ⟨⟨hb1, hb2⟩, hnone⟩
  have hset : (gridCells hm).filter (fun p => updateSteps st np (some x) p = none)
      = ((gridCells hm).filter (fun p => st p = none)).erase np := by
    ext q
    simp only [Finset.mem_filter, Finset.mem_erase, updateSteps]
    constructor
    · rintro ⟨hq, hval⟩
      by_cases hqnp : q = np
      · rw [if_pos hqnp] at hval
        exact absurd hval (by simp)
      · rw [if_neg hqnp] at hval
        exact ⟨hqnp, hq, hval⟩
    · rintro ⟨hqnp, hq, hval⟩
      refine ⟨hq, ?_⟩
      rw [if_neg hqnp]
      exact hval
  rw [hset, Finset.card_erase_of_mem hmem]
  have hpos : 0 < ((gridCells hm).filter (fun p => st p = none)).card :=
    Finset.card_pos.mpr ⟨np, hmem⟩
  omega

theorem visitOne_eq_update {hm : List String} {cur : ℕ × ℕ}
    {acc : ((ℕ × ℕ) → Option ℕ) × List (ℕ × ℕ)} {off : ℤ × ℤ}
    (hcond : visitCond hm cur acc.1 off) :
    visitOne hm cur acc off
      = (updateSteps acc.1 (offTarget cur off) ((acc.1 (cur.1, cur.2)).map (fun k => k + 1)),
         acc.2 ++ [offTarget cur off]) := by
  simp only [visitOne, if_pos hcond]

theorem visitOne_eq_same {hm : List String} {cur : ℕ × ℕ}
    {acc : ((ℕ × ℕ) → Option ℕ) × List (ℕ × ℕ)} {off : ℤ × ℤ}
    (hcond : ¬ visitCond hm cur acc.1 off) :
    visitOne hm cur acc off = acc := by
  simp only [visitOne, if_neg hcond]

theorem visitCond_bounds {hm : List String} {cur : ℕ × ℕ} {st : (ℕ × ℕ) → Option ℕ}
    {off : ℤ × ℤ} (h : visitCond hm cur st off) :
    (offTarget cur off).1 < numRows hm ∧ (offTarget cur off).2 < numColumns hm := by
  unfold visitCond at h
  obtain ⟨h0r, hrlt, h0c, hclt, _, _⟩ := h
  constructor <;> (simp only [offTarget]; omega)

theorem updated_cur_value {hm : List String} {cur : ℕ × ℕ}
    {acc : ((ℕ × ℕ) → Option ℕ) × List (ℕ × ℕ)} {off : ℤ × ℤ} {d : ℕ}
    (hoff : off ∈ stepOffsets) (hcond : visitCond hm cur acc.1 off)
    (hc : acc.1 (cur.1, cur.2) = some d) :
    (updateSteps acc.1 (offTarget cur off) ((acc.1 (cur.1, cur.2)).map (fun k => k + 1)))
      (cur.1, cur.2) = some d := by
  have h := @visitOne_fst_cur hm cur acc off hoff
  rw [visitOne_eq_update hcond] at h
  exact h.trans hc

theorem updated_target_value {cur : ℕ × ℕ}
    {acc : ((ℕ × ℕ) → Option ℕ) × List (ℕ × ℕ)} {off : ℤ × ℤ} {d : ℕ}
    (hc : acc.1 (cur.1, cur.2) = some d) :
    (updateSteps acc.1 (offTarget cur off) ((acc.1 (cur.1, cur.2)).map (fun k => k + 1)))
      (offTarget cur off) = some (d + 1) := by
  simp only [updateSteps, if_pos rfl]
  rw [hc]
  rfl

theorem foldVisit_pushed {hm : List String} {cur : ℕ × ℕ} :
    ∀ (offs : List (ℤ × ℤ)), (∀ off ∈ offs, off ∈ stepOffsets) →
      ∀ (acc : ((ℕ × ℕ) → Option ℕ) × List (ℕ × ℕ)) (d : ℕ),
      acc.1 (cur.1, cur.2) = some d →
      ∀ p ∈ (offs.foldl (visitOne hm cur) acc).2,
        p ∈ acc.2 ∨ (offs.foldl (visitOne hm cur) acc).1 p = some (d + 1) := by
  intro offs
  induction offs with
  | nil => intro _ acc d hc p hp; exact Or.inl hp
  | cons off offs ih =>
    intro hsub acc d hc p hp
    have hsub' : ∀ o ∈ offs, o ∈ stepOffsets :=
      fun o ho => hsub o (List.mem_cons_of_mem off ho)
    have hoff0 : off ∈ stepOffsets := hsub off (List.mem_cons_self off offs)
    rw [List.foldl_cons] at hp ⊢
    by_cases hcond : visitCond hm cur acc.1 off
    · rw [visitOne_eq_update hcond] at hp ⊢
      have hcur' := updated_cur_value hoff0 hcond hc
      rcases ih hsub' _ d hcur' p hp with hmem | hval
      · rcases List.mem_append.mp hmem with h1 | h2
        · exact Or.inl h1
        · have hpe : p = offTarget cur off := List.mem_singleton.mp h2
          right
          subst hpe
          exact foldVisit_fst_preserves offs _ _ _ (updated_target_value hc)
      · exact Or.inr hval
    · rw [visitOne_eq_same hcond] at hp ⊢
      exact ih hsub' acc d hc p hp

theorem foldVisit_count {hm : List String} {cur : ℕ × ℕ} :
    ∀ (offs : List (ℤ × ℤ)), (∀ off ∈ offs, off ∈ stepOffsets) →
      ∀ (acc : ((ℕ × ℕ) → Option ℕ) × List (ℕ × ℕ)) (d : ℕ),
      acc.1 (cur.1, cur.2) = some d →
      unvisited hm (offs.foldl (visitOne hm cur) acc).1
          + (offs.foldl (visitOne hm cur) acc).2.length
        = unvisited hm acc.1 + acc.2.length := by
  intro offs
  induction offs with
  | nil => intro _ acc d hc; rfl
  | cons off offs ih =>
    intro hsub acc d hc
    have hsub' : ∀ o ∈ offs, o ∈ stepOffsets :=
      fun o ho => hsub o (List.mem_cons_of_mem off ho)
    have hoff0 : off ∈ stepOffsets := hsub off (List.mem_cons_self off offs)
    rw [List.foldl_cons]
    by_cases hcond : visitCond hm cur acc.1 off
    · rw [visitOne_eq_update hcond]
      have hcur' := updated_cur_value hoff0 hcond hc
      have hv : (acc.1 (cur.1, cur.2)).map (fun k => k + 1) = some (d + 1) := by
        rw [hc]
        rfl
      have hb := visitCond_bounds hcond
      have hnone : acc.1 (offTarget cur off) = none := hcond.2.2.2.2.1
      have hu := unvisited_update hb.1 hb.2 hnone (d + 1)
      have hih := ih hsub' (updateSteps acc.1 (offTarget cur off) ((acc.1 (cur.1, cur.2)).map (fun k => k + 1)), acc.2 ++ [offTarget cur off]) d hcur'
      dsimp only at hih
      rw [hv] at hcur' hih ⊢
      have hlen : (acc.2 ++ [offTarget cur off]).length = acc.2.length + 1 := by simp
      rw [hlen] at hih
      omega
    · rw [visitOne_eq_same hcond]
      exact ih hsub' acc d hc

theorem foldVisit_fst_spec {hm : List String} {cur : ℕ × ℕ} :
    ∀ (offs : List (ℤ × ℤ)), (∀ off ∈ offs, off ∈ stepOffsets) →
      ∀ (acc : ((ℕ × ℕ) → Option ℕ) × List (ℕ × ℕ)) (d : ℕ),
      acc.1 (cur.1, cur.2) = some d → ∀ p : ℕ × ℕ,
      (offs.foldl (visitOne hm cur) acc).1 p = acc.1 p
      ∨ (acc.1 p = none ∧ (offs.foldl (visitOne hm cur) acc).1 p = some (d + 1)
          ∧ Adj hm cur p ∧ p ∈ (offs.foldl (visitOne hm cur) acc).2) := by
  intro offs
  induction offs with
  | nil => intro _ acc d hc p; exact Or.inl rfl
  | cons off offs ih =>
    intro hsub acc d hc p
    have hsub' : ∀ o ∈ offs, o ∈ stepOffsets :=
      fun o ho => hsub o (List.mem_cons_of_mem off ho)
    have hoff0 : off ∈ stepOffsets := hsub off (List.mem_cons_self off offs)
    rw [List.foldl_cons]
    by_cases hcond : visitCond hm cur acc.1 off
    · rw [visitOne_eq_update hcond]
      have hcur' := updated_cur_value hoff0 hcond hc
      rcases ih hsub' (updateSteps acc.1 (offTarget cur off) ((acc.1 (cur.1, cur.2)).map (fun k => k + 1)), acc.2 ++ [offTarget cur off]) d hcur' p with hsame | ⟨hn', hval, hadj', hmem'⟩
      · by_cases hp : p = offTarget cur off
        · subst hp
          right
          have hnone : acc.1 (offTarget cur off) = none := hcond.2.2.2.2.1
          refine ⟨hnone, ?_, visitCond_adj hoff0 hcond, ?_⟩
          · rw [hsame]
            exact updated_target_value hc
          · exact foldVisit_snd_mono offs _ _
              (List.mem_append_right _ (List.mem_singleton_self _))
        · left
          rw [hsame]
          simp only [updateSteps]
          rw [if_neg hp]
      · have hn : acc.1 p = none := by
          by_cases hp : p = offTarget cur off
          · exfalso
            subst hp
            exact Option.noConfusion ((updated_target_value hc).symm.trans hn')
          · simp only [updateSteps] at hn'
            rw [if_neg hp] at hn'
            exact hn'
        exact Or.inr ⟨hn, hval, hadj', hmem'⟩
    · rw [visitOne_eq_same hcond]
      exact ih hsub' acc d hc p

theorem foldVisit_covers {hm : List String} {cur : ℕ × ℕ} :
    ∀ (offs : List (ℤ × ℤ)), (∀ off ∈ offs, off ∈ stepOffsets) →
      ∀ (acc : ((ℕ × ℕ) → Option ℕ) × List (ℕ × ℕ)) (d : ℕ),
      acc.1 (cur.1, cur.2) = some d →
      (∀ p k, acc.1 p = some k → k ≤ d + 1) →
      ∀ (q : ℕ × ℕ) (off : ℤ × ℤ), off ∈ offs → Adj hm cur q →
        q = offTarget cur off →
        (q.1 : ℤ) = (cur.1 : ℤ) + off.1 → (q.2 : ℤ) = (cur.2 : ℤ) + off.2 →
        ∃ k, k ≤ d + 1 ∧ (offs.foldl (visitOne hm cur) acc).1 q = some k := by
  intro offs
  induction offs with
  | nil => intro _ acc d hc hbound q off hoffmem; exact absurd hoffmem (List.not_mem_nil off)
  | cons off0 offs ih =>
    intro hsub acc d hc hbound q off hoffmem hadj hqe h1 h2
    have hsub' : ∀ o ∈ offs, o ∈ stepOffsets :=
      fun o ho => hsub o (List.mem_cons_of_mem off0 ho)
    have hoff0 : off0 ∈ stepOffsets := hsub off0 (List.mem_cons_self off0 offs)
    rw [List.foldl_cons]
    by_cases hcond : visitCond hm cur acc.1 off0
    · rw [visitOne_eq_update hcond]
      have hcur' := updated_cur_value hoff0 hcond hc
      have hbound' : ∀ p k,
          (updateSteps acc.1 (offTarget cur off0)
            ((acc.1 (cur.1, cur.2)).map (fun k => k + 1))) p = some k → k ≤ d + 1 := by
        intro p k hpk
        simp only [updateSteps] at hpk
        by_cases hp : p = offTarget cur off0
        · rw [if_pos hp, hc] at hpk
          have : d + 1 = k := Option.some.inj hpk
          omega
        · rw [if_neg hp] at hpk
          exact hbound p k hpk
      rcases List.mem_cons.mp hoffmem with heq0 | hoffrest
      · subst heq0
        refine ⟨d + 1, le_refl _, ?_⟩
        rw [hqe]
        exact foldVisit_fst_preserves offs _ _ _ (updated_target_value hc)
      · exact ih hsub' (updateSteps acc.1 (offTarget cur off0) ((acc.1 (cur.1, cur.2)).map (fun k => k + 1)), acc.2 ++ [offTarget cur off0]) d hcur' hbound' q off hoffrest hadj hqe h1 h2
    · rw [visitOne_eq_same hcond]
      rcases List.mem_cons.mp hoffmem with heq0 | hoffrest
      · subst heq0
        cases hq : acc.1 q with
        | none => exact absurd (adj_visitCond hadj hqe h1 h2 hq) hcond
        | some k =>
          exact ⟨k, hbound q k hq, foldVisit_fst_preserves offs acc q k hq⟩
      · exact ih hsub' acc d hc hbound q off hoffrest hadj hqe h1 h2

end Day12

namespace Day12

/-- The BFS loop invariant: the start is at distance `0`; every recorded
step count is witnessed by a walk; the queue holds visited cells whose
recorded values are non-decreasing and spread over at most two consecutive
levels; every visited cell is either still queued or has all its neighbours
visited within one extra step; and no recorded value exceeds the front
value plus one. -/
structure Inv (hm : List String) (start : ℕ × ℕ) (s : BfsState) : Prop where
  start0 : s.steps start = some 0
  sound : ∀ p k, s.steps p = some k → PathN hm start p k
  queueVals : ∃ ds : List ℕ, s.queue.map s.steps = ds.map some ∧
      List.Pairwise (fun a b => a ≤ b ∧ b ≤ a + 1) ds
  processed : ∀ p k, s.steps p = some k →
      p ∈ s.queue ∨ ∀ q, Adj hm p q → ∃ kq, s.steps q = some kq ∧ kq ≤ k + 1
  bounded : ∀ c, s.queue.head? = some c → ∀ dc, s.steps c = some dc →
      ∀ p k, s.steps p = some k → k ≤ dc + 1

theorem pairwise_replicate_of_refl {α : Type} {R : α → α → Prop} {a : α} (h : R a a) :
    ∀ n, List.Pairwise R (List.replicate n a) := by
  intro n
  induction n with
  | zero => exact List.Pairwise.nil
  | succ n ih =>
    rw [List.replicate_succ]
    refine List.pairwise_cons.mpr ⟨?_, ih⟩
    intro b hb
    rw [List.eq_of_mem_replicate hb]
    exact h

theorem step_preserves_inv {hm : List String} {start cur : ℕ × ℕ} {rest : List (ℕ × ℕ)}
    {s : BfsState} (hq : s.queue = cur :: rest) (hinv : Inv hm start s) :
    Inv hm start ⟨(visitNeighbors hm s.steps cur).1, rest ++ (visitNeighbors hm s.steps cur).2⟩
    ∧ 5 * unvisited hm (visitNeighbors hm s.steps cur).1
        + (rest ++ (visitNeighbors hm s.steps cur).2).length + 1
      ≤ 5 * unvisited hm s.steps + s.queue.length := by
  obtain ⟨ds, hmap, hpair⟩ := hinv.queueVals
  rw [hq] at hmap
  cases ds with
  | nil => exact absurd hmap (by simp)
  | cons d ds' =>
  simp only [List.map_cons, List.cons.injEq] at hmap
  obtain ⟨hcur, hrest⟩ := hmap
  have hsub : ∀ off ∈ stepOffsets, off ∈ stepOffsets := fun o ho => ho
  have hbound0 : ∀ p k, s.steps p = some k → k ≤ d + 1 :=
    fun p k hpk => hinv.bounded cur (by rw [hq]; rfl) d hcur p k hpk
  have hpres : ∀ p k, s.steps p = some k →
      (visitNeighbors hm s.steps cur).1 p = some k :=
    fun p k h => foldVisit_fst_preserves stepOffsets (s.steps, []) p k h
  have hspec := @foldVisit_fst_spec hm cur stepOffsets hsub (s.steps, []) d hcur
  have hpushed := @foldVisit_pushed hm cur stepOffsets hsub (s.steps, []) d hcur
  have hcount := @foldVisit_count hm cur stepOffsets hsub (s.steps, []) d hcur
  have hcurpres : (visitNeighbors hm s.steps cur).1 cur = some d :=
    (@foldVisit_fst_cur hm cur stepOffsets hsub (s.steps, [])).trans hcur
  have hcover : ∀ q, Adj hm cur q →
      ∃ kq, kq ≤ d + 1 ∧ (visitNeighbors hm s.steps cur).1 q = some kq := by
    intro q hadj
    obtain ⟨off, hoffmem, hqe, h1, h2⟩ := adj_exists_off hadj
    exact @foldVisit_covers hm cur stepOffsets hsub (s.steps, []) d hcur hbound0 q off hoffmem
      hadj hqe h1 h2
  have hpushval : ∀ p ∈ (visitNeighbors hm s.steps cur).2,
      (visitNeighbors hm s.steps cur).1 p = some (d + 1) := by
    intro p hp
    rcases hpushed p hp with habs | hval
    · exact absurd habs (List.not_mem_nil p)
    · exact hval
  refine ⟨⟨?_, ?_, ?_, ?_, ?_⟩, ?_⟩
  · -- start stays at 0
    exact hpres start 0 hinv.start0
  · -- soundness
    intro p k hpk
    rcases hspec p with hsame | ⟨hnone, hval, hadj, hmem⟩
    · exact hinv.sound p k (hsame.symm.trans hpk)
    · have hk : k = d + 1 := (Option.some.inj (hval.symm.trans hpk)).symm
      subst hk
      exact PathN.step (hinv.sound cur d hcur) hadj
  · -- queue values stay layered
    refine ⟨ds' ++ List.replicate (visitNeighbors hm s.steps cur).2.length (d + 1), ?_, ?_⟩
    · show (rest ++ (visitNeighbors hm s.steps cur).2).map (visitNeighbors hm s.steps cur).1
        = (ds' ++ List.replicate (visitNeighbors hm s.steps cur).2.length (d + 1)).map some
      rw [List.map_append, List.map_append, List.map_replicate]
      have hrestF : rest.map (visitNeighbors hm s.steps cur).1 = ds'.map some := by
        have hcong : ∀ r ∈ rest, (visitNeighbors hm s.steps cur).1 r = s.steps r := by
          intro r hr
          have hmem2 : s.steps r ∈ ds'.map some := by
            rw [← hrest]
            exact List.mem_map_of_mem s.steps hr
          obtain ⟨k, _, hk⟩ := List.mem_map.mp hmem2
          rw [← hk]
          exact hpres r k hk.symm
        rw [List.map_congr_left hcong, hrest]
      have hpushF : (visitNeighbors hm s.steps cur).2.map (visitNeighbors hm s.steps cur).1
          = List.replicate (visitNeighbors hm s.steps cur).2.length (some (d + 1)) := by
        have := List.eq_replicate_of_mem (l :=
          (visitNeighbors hm s.steps cur).2.map (visitNeighbors hm s.steps cur).1)
          (a := some (d + 1)) ?_
        · rw [this, List.length_map]
        · intro b hb
          obtain ⟨p, hp, hbp⟩ := List.mem_map.mp hb
          rw [← hbp]
          exact hpushval p hp
      rw [hrestF, hpushF]
    · rw [List.pairwise_append]
      obtain ⟨hhead, htail⟩ := List.pairwise_cons.mp hpair
      refine ⟨htail, pairwise_replicate_of_refl ⟨le_refl _, by omega⟩ _, ?_⟩
      intro x hx y hy
      rw [List.eq_of_mem_replicate hy]
      have hxd := hhead x hx
      exact ⟨by omega, by omega⟩
  · -- processed cells keep covered neighbours
    intro p k hpk
    by_cases hpcur : p = cur
    · subst hpcur
      right
      have hk : k = d := (Option.some.inj (hcurpres.symm.trans hpk)).symm
      subst hk
      intro q hadj
      obtain ⟨kq, hkq, hvq⟩ := hcover q hadj
      exact ⟨kq, hvq, hkq⟩
    · rcases hspec p with hsame | ⟨hnone, hval, hadj, hmem⟩
      · have holdk : s.steps p = some k := hsame.symm.trans hpk
        rcases hinv.processed p k holdk with hmem2 | hnb
        · rw [hq] at hmem2
          rcases List.mem_cons.mp hmem2 with h1 | h2
          · exact absurd h1 hpcur
          · exact Or.inl (List.mem_append_left _ h2)
        · right
          intro q hadj'
          obtain ⟨kq, hkq, hle⟩ := hnb q hadj'
          exact ⟨kq, hpres q kq hkq, hle⟩
      · exact Or.inl (List.mem_append_right _ hmem)
  · -- the front value still bounds every recorded value
    intro c hchead dc hcdc p k hpk
    have hddc : d ≤ dc := by
      cases rest with
      | nil =>
        simp only [List.nil_append] at hchead
        have hcmem : c ∈ (visitNeighbors hm s.steps cur).2 :=
          List.mem_of_mem_head? hchead
        have hcv := hpushval c hcmem
        have : d + 1 = dc := Option.some.inj (hcv.symm.trans hcdc)
        omega
      | cons r0 rest' =>
        have hc0 : c = r0 := by
          simp only [List.cons_append, List.head?_cons, Option.some.injEq] at hchead
          exact hchead.symm
        subst hc0
        cases ds' with
        | nil => exact absurd hrest (by simp)
        | cons e ds'' =>
          simp only [List.map_cons, List.cons.injEq] at hrest
          obtain ⟨hr0, _⟩ := hrest
          have he : d ≤ e := ((List.pairwise_cons.mp hpair).1 e
            (List.mem_cons_self e ds'')).1
          have hFr0 : (visitNeighbors hm s.steps cur).1 c = some e := hpres c e hr0
          have : e = dc := Option.some.inj (hFr0.symm.trans hcdc)
          omega
    rcases hspec p with hsame | ⟨_, hval, _, _⟩
    · have := hbound0 p k (hsame.symm.trans hpk)
      omega
    · have hk : k = d + 1 := (Option.some.inj (hval.symm.trans hpk)).symm
      omega
  · -- the loop measure strictly decreases
    rw [hq]
    simp only [List.length_append, List.length_cons]
    have hc2 : unvisited hm (visitNeighbors hm s.steps cur).1
        + (visitNeighbors hm s.steps cur).2.length = unvisited hm s.steps := by
      have := hcount
      simpa using this
    omega

end Day12

namespace Day12

theorem bfsLoop_inv {hm : List String} {start : ℕ × ℕ} :
    ∀ (fuel : ℕ) (st : (ℕ × ℕ) → Option ℕ) (qu : List (ℕ × ℕ)),
      Inv hm start ⟨st, qu⟩ →
      5 * unvisited hm st + qu.length ≤ fuel →
      Inv hm start (bfsLoop hm fuel ⟨st, qu⟩) ∧ (bfsLoop hm fuel ⟨st, qu⟩).queue = [] := by
  intro fuel
  induction fuel with
  | zero =>
    intro st qu hinv hmeas
    have hq : qu = [] := List.length_eq_zero.mp (by omega)
    subst hq
    exact ⟨hinv, rfl⟩
  | succ fuel ih =>
    intro st qu hinv hmeas
    cases qu with
    | nil => exact ⟨hinv, rfl⟩
    | cons cur rest =>
      obtain ⟨hinv2, hle⟩ :=
        @step_preserves_inv hm start cur rest ⟨st, cur :: rest⟩ rfl hinv
      have heq : bfsLoop hm (fuel + 1) ⟨st, cur :: rest⟩
          = bfsLoop hm fuel ⟨(visitNeighbors hm st cur).1,
              rest ++ (visitNeighbors hm st cur).2⟩ := rfl
      rw [heq]
      apply ih
      · exact hinv2
      · dsimp only at hle
        simp only [List.length_append, List.length_cons] at hle hmeas ⊢
        omega

theorem initInv (hm : List String) (start : ℕ × ℕ) :
    Inv hm start ⟨initSteps hm start, [start]⟩ := by
  refine ⟨?_, ?_, ?_, ?_, ?_⟩
  · simp [initSteps, updateSteps]
  · intro p k h
    simp only [initSteps, updateSteps] at h
    split at h
    · rename_i hp
      subst hp
      have hk : k = 0 := (Option.some.inj h).symm
      subst hk
      exact PathN.refl p
    · exact absurd h (by simp)
  · refine ⟨[0], ?_, ?_⟩
    · simp [initSteps, updateSteps]
    · exact List.pairwise_singleton _ _
  · intro p k h
    left
    simp only [initSteps, updateSteps] at h
    split at h
    · rename_i hp
      simp [hp]
    · exact absurd h (by simp)
  · intro c hc dc hdc p k hk
    simp only [initSteps, updateSteps] at hk
    split at hk
    · have : k = 0 := (Option.some.inj hk).symm
      omega
    · exact absurd hk (by simp)

theorem bfs_final (hm : List String) (start : ℕ × ℕ) :
    Inv hm start (bfsLoop hm (bfsFuel hm) ⟨initSteps hm start, [start]⟩)
    ∧ (bfsLoop hm (bfsFuel hm) ⟨initSteps hm start, [start]⟩).queue = [] := by
  apply bfsLoop_inv (bfsFuel hm) (initSteps hm start) [start] (initInv hm start)
  have h1 : unvisited hm (initSteps hm start) ≤ (gridCells hm).card :=
    Finset.card_filter_le _ _
  have h2 : (gridCells hm).card = numRows hm * numColumns hm := by
    simp [gridCells]
  simp only [List.length_cons, List.length_nil, bfsFuel]
  omega

theorem final_covers {hm : List String} {start : ℕ × ℕ} {s : BfsState}
    (hinv : Inv hm start s) (hq : s.queue = []) :
    ∀ p k, s.steps p = some k → ∀ q, Adj hm p q →
      ∃ kq, s.steps q = some kq ∧ kq ≤ k + 1 := by
  intro p k hk q hadj
  rcases hinv.processed p k hk with hmem | hnb
  · rw [hq] at hmem
    exact absurd hmem (List.not_mem_nil p)
  · exact hnb q hadj

theorem pathN_lift {hm : List String} {st : (ℕ × ℕ) → Option ℕ}
    (hcov : ∀ p k, st p = some k → ∀ q, Adj hm p q →
      ∃ kq, st q = some kq ∧ kq ≤ k + 1) :
    ∀ (a p : ℕ × ℕ) (n : ℕ), PathN hm a p n → ∀ k0, st a = some k0 →
      ∃ k, k ≤ k0 + n ∧ st p = some k := by
  intro a p n hpath
  induction hpath with
  | refl =>
    intro k0 h
    exact ⟨k0, by omega, h⟩
  | step hpq hadj ih =>
    intro k0 h
    obtain ⟨k, hkle, hk⟩ := ih k0 h
    obtain ⟨kq, hkq, hle⟩ := hcov _ k hk _ hadj
    exact ⟨kq, by omega, hkq⟩

theorem bfs_correct {hm : List String} (start goal : ℕ × ℕ) :
    (∀ d, breadth_first_height_search hm start goal = some d →
        IsLeast {n | PathN hm start goal n} d)
    ∧ (breadth_first_height_search hm start goal = none →
        ∀ n, ¬ PathN hm start goal n) := by
  obtain ⟨hinv, hq⟩ := bfs_final hm start
  constructor
  · intro d hd
    constructor
    · exact hinv.sound goal d hd
    · intro n hn
      obtain ⟨k, hkle, hk⟩ :=
        pathN_lift (final_covers hinv hq) start goal n hn 0 hinv.start0
      have hkd : k = d := Option.some.inj (hk.symm.trans hd)
      omega
  · intro hnone n hn
    obtain ⟨k, hkle, hk⟩ :=
      pathN_lift (final_covers hinv hq) start goal n hn 0 hinv.start0
    exact Option.noConfusion (hk.symm.trans hnone)

end Day12

namespace Day12

/-- C1: for every rectangular heightmap and in-bounds start and goal,
`breadth_first_height_search` returns `some d` exactly when `d` is the least
number of legal steps (orthogonal moves climbing at most one unit, with `S`
read as `a` and `E` as `z`) from the start to the goal; in particular, when
the goal is reachable it returns that minimal step count. -/
theorem c1_breadth_first_height_search_minimal (hm : List String) (s g : ℕ × ℕ)
    (hne : hm ≠ []) (hrect : ∀ row ∈ hm, row.length = numColumns hm)
    (hs : inBounds hm s) (hg : inBounds hm g) :
    (∀ d, breadth_first_height_search hm s g = some d
        ↔ IsLeast {n | PathN hm s g n} d)
    ∧ ((∃ n, PathN hm s g n) →
        ∃ d, breadth_first_height_search hm s g = some d
          ∧ IsLeast {n | PathN hm s g n} d) := by
  obtain ⟨hfwd, hnone⟩ := @bfs_correct hm s g
  have hiff : ∀ d, breadth_first_height_search hm s g = some d
      ↔ IsLeast {n | PathN hm s g n} d := by
    intro d
    constructor
    · exact hfwd d
    · intro hleast
      cases hbfs : breadth_first_height_search hm s g with
      | none => exact absurd hleast.1 (hnone hbfs d)
      | some d2 =>
        have h2 := hfwd d2 hbfs
        have hdd : d = d2 := le_antisymm (hleast.2 h2.1) (h2.2 hleast.1)
        rw [hdd]
  refine ⟨hiff, ?_⟩
  rintro ⟨n, hn⟩
  cases hbfs : breadth_first_height_search hm s g with
  | none => exact absurd hn (hnone hbfs n)
  | some d => exact ⟨d, rfl, hfwd d hbfs⟩

theorem c1_minimal_witness :
    IsLeast {n | PathN (["Sab"]) (0, 0) (0, 2) n} 2 :=
  ((c1_breadth_first_height_search_minimal (["Sab"]) ((0, 0)) ((0, 2))
      (by decide) (by decide) (by decide) (by decide)).1 2).mp (by decide)

end Day12

namespace Day12

theorem bfs_toENat {hm : List String} (p g : ℕ × ℕ) :
    toENat (breadth_first_height_search hm p g)
      = sInf {m : ℕ∞ | ∃ n, PathN hm p g n ∧ m = (n : ℕ∞)} := by
  obtain ⟨hfwd, hnone⟩ := @bfs_correct hm p g
  cases hbfs : breadth_first_height_search hm p g with
  | none =>
    have hempty : {m : ℕ∞ | ∃ n, PathN hm p g n ∧ m = (n : ℕ∞)} = ∅ := by
      ext m
      simp only [Set.mem_setOf_eq, Set.mem_empty_iff_false, iff_false, not_exists]
      intro n hn
      exact absurd hn.1 (hnone hbfs n)
    rw [hempty, sInf_empty]
    rfl
  | some d =>
    have hleast := hfwd d hbfs
    have hl2 : IsLeast {m : ℕ∞ | ∃ n, PathN hm p g n ∧ m = (n : ℕ∞)} (d : ℕ∞) := by
      constructor
      · exact ⟨d, hleast.1, rfl⟩
      · rintro m ⟨n, hn, rfl⟩
        exact_mod_cast hleast.2 hn
    have hseq : sInf {m : ℕ∞ | ∃ n, PathN hm p g n ∧ m = (n : ℕ∞)} = (d : ℕ∞) :=
      le_antisymm (sInf_le hl2.1) (le_sInf (fun b hb => hl2.2 hb))
    rw [hseq]
    rfl

theorem foldr_min_map_sInf {α : Type} (S : α → Set ℕ∞) :
    ∀ (l : List α), (l.map (fun p => sInf (S p))).foldr min ⊤
      = sInf {m : ℕ∞ | ∃ p ∈ l, m ∈ S p} := by
  intro l
  induction l with
  | nil =>
    have hempty : {m : ℕ∞ | ∃ p ∈ ([] : List α), m ∈ S p} = ∅ := by
      ext m
      simp
    simp [hempty]
  | cons a l ih =>
    have hset : {m : ℕ∞ | ∃ p ∈ a :: l, m ∈ S p}
        = S a ∪ {m : ℕ∞ | ∃ p ∈ l, m ∈ S p} := by
      ext m
      simp only [List.mem_cons, Set.mem_union, Set.mem_setOf_eq]
      constructor
      · rintro ⟨p, hp | hp, hmem⟩
        · exact Or.inl (hp ▸ hmem)
        · exact Or.inr ⟨p, hp, hmem⟩
      · rintro (hmem | ⟨p, hp, hmem⟩)
        · exact ⟨a, Or.inl rfl, hmem⟩
        · exact ⟨p, Or.inr hp, hmem⟩
    rw [List.map_cons, List.foldr_cons, ih, hset, sInf_union]

theorem az_reach_only_start :
    ∀ (a p : ℕ × ℕ) (n : ℕ), PathN (["az"]) a p n → a = (0, 0) → p = (0, 0) := by
  intro a p n h
  induction h with
  | refl => intro hw; exact hw
  | @step q r m hpq hadj ih =>
    intro ha
    have hq : q = (0, 0) := ih ha
    rw [hq] at hadj
    exfalso
    obtain ⟨⟨hb1, hb2⟩, ⟨off, hoff, he1, he2⟩, hh⟩ := hadj
    obtain ⟨r1, r2⟩ := r
    have hr : numRows (["az"]) = 1 := rfl
    have hc : numColumns (["az"]) = 2 := rfl
    simp only [stepOffsets, List.mem_cons, List.not_mem_nil, or_false] at hoff
    rcases hoff with rfl | rfl | rfl | rfl
    · dsimp only at he1 hb1
      omega
    · dsimp only at he1 hb1
      omega
    · dsimp only at he1 he2 hh
      have h1 : r1 = 0 := by omega
      have h2 : r2 = 1 := by omega
      subst h1
      subst h2
      exact absurd hh (by decide)
    · dsimp only at he2
      omega

theorem az_no_path : ∀ n, ¬ PathN (["az"]) (0, 0) (0, 1) n := by
  intro n hn
  have h := az_reach_only_start (0, 0) (0, 1) n hn rfl
  exact absurd h (by decide)

/-- C10: when the goal is in bounds but unreachable from an in-bounds start,
`breadth_first_height_search` returns infinity (`none` in this model, the
`math.inf` left in the steps matrix) instead of failing; therefore `part_2`'s
minimum over all `a`-positions equals the least path length over the reachable
`a`-positions alone, and is finite as soon as one `a`-position reaches the
goal. -/
theorem c10_unreachable_inf_and_part2_min (hm : List String) :
    (∀ s g : ℕ × ℕ, inBounds hm s → inBounds hm g →
        (∀ n, ¬ PathN hm s g n) → breadth_first_height_search hm s g = none)
    ∧ (∀ g : ℕ × ℕ, inBounds hm g →
        (∃ p ∈ positions_with_elevation_letter hm 'a', ∃ n, PathN hm p g n) →
        part_2_min hm g ≠ ⊤
        ∧ part_2_min hm g
            = sInf {m : ℕ∞ | ∃ p ∈ positions_with_elevation_letter hm 'a',
                ∃ n, PathN hm p g n ∧ m = (n : ℕ∞)}) := by
  constructor
  · intro s g hs hg hnopath
    obtain ⟨hfwd, hnone⟩ := @bfs_correct hm s g
    cases hbfs : breadth_first_height_search hm s g with
    | none => rfl
    | some d => exact absurd (hfwd d hbfs).1 (hnopath d)
  · intro g hg hex
    have hmain : part_2_min hm g
        = sInf {m : ℕ∞ | ∃ p ∈ positions_with_elevation_letter hm 'a',
            ∃ n, PathN hm p g n ∧ m = (n : ℕ∞)} := by
      unfold part_2_min
      have hcong : (positions_with_elevation_letter hm 'a').map
            (fun p => toENat (breadth_first_height_search hm p g))
          = (positions_with_elevation_letter hm 'a').map
            (fun p => sInf {m : ℕ∞ | ∃ n, PathN hm p g n ∧ m = (n : ℕ∞)}) := by
        apply List.map_congr_left
        intro p hp
        exact bfs_toENat p g
      rw [hcong, foldr_min_map_sInf
        (fun p => {m : ℕ∞ | ∃ n, PathN hm p g n ∧ m = (n : ℕ∞)})]
      congr 1
    refine ⟨?_, hmain⟩
    obtain ⟨p, hp, n, hn⟩ := hex
    rw [hmain]
    intro htop
    have hle : sInf {m : ℕ∞ | ∃ p ∈ positions_with_elevation_letter hm 'a',
        ∃ n, PathN hm p g n ∧ m = (n : ℕ∞)} ≤ (n : ℕ∞) :=
      sInf_le ⟨p, hp, n, hn, rfl⟩
    rw [htop] at hle
    have hcontr : (n : ℕ∞) = ⊤ := top_le_iff.mp hle
    exact absurd hcontr (by simp)

theorem c10_witness :
    breadth_first_height_search (["az"]) (0, 0) (0, 1) = none
    ∧ part_2_min (["az"]) (0, 0) ≠ ⊤ := by
  have h := c10_unreachable_inf_and_part2_min (["az"])
  refine ⟨h.1 (0, 0) (0, 1) (by decide) (by decide) az_no_path, ?_⟩
  exact (h.2 (0, 0) (by decide)
    ⟨(0, 0), by decide, 0, PathN.refl (0, 0)⟩).1

end Day12
